import Mathlib

/-!
Verification of the scipipe core: a shallow embedding of the port/channel
dataflow substrate, the shell-process task loop, the command formatter and
the task execution discipline, together with proofs of the behavioural
properties stated in the specification.

Conventions of the embedding:
* Go strings are `String`; Go byte/char scanning is done on `String.data`.
* Go maps keyed by strings are association lists `List (String × _)`;
  a missing key yields the zero value, as in Go.
* Go channels are modelled by the finite list of values sent on them before
  closure; a blocking receive takes the head, and an empty list means the
  channel is observed closed.
* Fatal error paths (`Check` on a non-nil error, `os.Exit`) are modelled by
  `Except.error`; `Check` itself is not part of the sources, so its
  fatal-on-error behaviour is modelled from the spec (section 7: "Fatal
  means: log with the command and port context, then terminate").
* The filesystem is a predicate `String → Bool` telling which paths exist.
-/

namespace SciPipe

/-- Left brace character, written via its code point. -/
def lbrace : Char := '\x7b'

/-- Right brace character, written via its code point. -/
def rbrace : Char := '\x7d'

/-- Model of a scipipe `FileTarget` (called `InformationPacket` in the other
source file): a handle to one on-disk artifact, carrying its final path and
its streaming flag.  The temp, FIFO and audit paths are derived from the
final path. -/
structure FileTarget where
  path : String
  doStream : Bool
deriving DecidableEq, Repr

/-- `GetPath`: the final path of the artifact. -/
def FileTarget.GetPath (t : FileTarget) : String := t.path

/-- `GetTempPath`: final path with the `.tmp` extension appended. -/
def FileTarget.GetTempPath (t : FileTarget) : String := t.path ++ ".tmp"

/-- `GetFifoPath`: final path with the `.fifo` extension appended. -/
def FileTarget.GetFifoPath (t : FileTarget) : String := t.path ++ ".fifo"

/-! ## The placeholder language

`getPlaceHolderRegex` compiles `\x7b(o|os|i|is|p):([^\x7b\x7d:]+)\x7d`.
We embed the matching behaviour of this fixed regular expression directly:
Go's regexp package (RE2) uses leftmost match position and, at one position,
the backtracking-order first alternative; for this expression the kind is
therefore the unique element of {o, os, i, is, p} followed by a colon. -/

/-- One placeholder match: the whole matched text, the kind submatch and the
name submatch, as produced by `FindAllStringSubmatch`. -/
structure PHMatch where
  whole : String
  typ : String
  name : String
deriving DecidableEq, Repr

/-- A character allowed inside a placeholder name: anything but braces and
colon, mirroring the `[^\x7b\x7d:]` character class. -/
def isNameChar (c : Char) : Bool := !(c == lbrace || c == rbrace || c == ':')

/-- Match the kind alternation followed by a colon at the head of the input,
in the alternation order of the regular expression. -/
def matchKindColon : List Char → Option (String × List Char)
  | 'o' :: 's' :: ':' :: rest => some ("os", rest)
  | 'o' :: ':' :: rest => some ("o", rest)
  | 'i' :: 's' :: ':' :: rest => some ("is", rest)
  | 'i' :: ':' :: rest => some ("i", rest)
  | 'p' :: ':' :: rest => some ("p", rest)
  | _ => none

/-- Try to complete a placeholder match directly after an opening brace.
Returns the match and the number of characters consumed after the brace. -/
def parseAfterBrace (cs : List Char) : Option (PHMatch × Nat) :=
  match matchKindColon cs with
  | none => none
  | some (typ, rest) =>
    let nm := rest.takeWhile isNameChar
    if nm.isEmpty then none
    else
      match rest.drop nm.length with
      | c :: _ =>
        if c = rbrace then
          some (⟨String.mk (lbrace :: (typ.data ++ ':' :: (nm ++ [rbrace]))), typ, String.mk nm⟩,
                typ.data.length + 1 + nm.length + 1)
        else none
      | [] => none

/-- All successive non-overlapping placeholder matches of the command string,
scanning left to right as `FindAllStringSubmatch` does. -/
def scanPH : List Char → List PHMatch
  | [] => []
  | c :: rest =>
    if c = lbrace then
      match parseAfterBrace rest with
      | some (m, n) => m :: scanPH (rest.drop n)
      | none => scanPH rest
    else scanPH rest
termination_by cs => cs.length
decreasing_by
  · simp only [List.length_cons, List.length_drop]; omega
  · simp only [List.length_cons]; omega
  · simp only [List.length_cons]; omega

/-! ## Go `strings.Replace(s, old, new, -1)`

Replaces every non-overlapping occurrence, left to right, and does not
rescan the replacement text. -/

/-- The scanning loop of `strings.Replace` for a non-empty pattern
`o1 :: orest`. -/
def replaceLoop (o1 : Char) (orest newStr : List Char) : List Char → List Char
  | [] => []
  | c :: rest =>
    if (o1 :: orest).isPrefixOf (c :: rest) then
      newStr ++ replaceLoop o1 orest newStr (rest.drop orest.length)
    else c :: replaceLoop o1 orest newStr rest
termination_by s => s.length
decreasing_by
  · simp only [List.length_cons, List.length_drop]; omega
  · simp only [List.length_cons]; omega

/-- `strings.Replace(s, old, new, -1)` on character lists. -/
def replaceAllCh (s oldStr newStr : List Char) : List Char :=
  match oldStr with
  | [] => s
  | o1 :: orest => replaceLoop o1 orest newStr s

/-- `strings.Replace(s, old, new, -1)` on strings. -/
def strReplace (s oldStr newStr : String) : String :=
  String.mk (replaceAllCh s.data oldStr.data newStr.data)

/-! ## The command formatter -/

/-- Go map read on a `map[string]*FileTarget`: first binding wins, absence is
`none` (a nil pointer in Go). -/
def lookupFT (m : List (String × FileTarget)) (n : String) : Option FileTarget :=
  (m.find? (fun kv => kv.1 == n)).map (fun kv => kv.2)

/-- Go map read on a `map[string]string`: absence yields the zero value `""`. -/
def paramGet (m : List (String × String)) (n : String) : String :=
  match m.find? (fun kv => kv.1 == n) with
  | some kv => kv.2
  | none => ""

/-- One iteration of the substitution loop of `formatCommand`: given the
command string as rewritten so far and one placeholder match, compute the
replacement text `newstr` exactly as the source does, fail on the source's
fatal paths, and rewrite every occurrence of the matched text. -/
def substStep (inTargets outTargets : List (String × FileTarget))
    (params : List (String × String)) (cmd : String) (m : PHMatch) :
    Except String String :=
  let newstrE : Except String String :=
    if m.typ = "o" ∨ m.typ = "os" then
      match lookupFT outTargets m.name with
      | none =>
        Except.error ("Missing outpath for outport \x27" ++ m.name ++ "\x27 for command \x27" ++ cmd ++ "\x27")
      | some tgt =>
        Except.ok (if m.typ = "o" then tgt.GetTempPath else tgt.GetFifoPath)
    else if m.typ = "i" then
      match lookupFT inTargets m.name with
      | none =>
        Except.error ("Missing intarget for inport \x27" ++ m.name ++ "\x27 for command \x27" ++ cmd ++ "\x27")
      | some tgt =>
        if tgt.GetPath = "" then
          Except.error ("Missing inpath for inport \x27" ++ m.name ++ "\x27 for command \x27" ++ cmd ++ "\x27")
        else
          Except.ok (if tgt.doStream then tgt.GetFifoPath else tgt.GetPath)
    else if m.typ = "p" then
      if paramGet params m.name = "" then
        Except.error ("Missing param value param \x27" ++ m.name ++ "\x27 for command \x27" ++ cmd ++ "\x27")
      else
        Except.ok (paramGet params m.name)
    else
      Except.ok ""
  match newstrE with
  | Except.error e => Except.error e
  | Except.ok newstr =>
    if newstr = "" then
      Except.error ("Replace failed for port " ++ m.name ++ " forcommand \x27" ++ cmd ++ "\x27")
    else
      Except.ok (strReplace cmd m.whole newstr)

/-- `formatCommand`: compute all placeholder matches of the original
command, rewrite them in order, then put the prepend string (and a space)
in front when it is non-empty. -/
def formatCommand (cmd : String) (inTargets outTargets : List (String × FileTarget))
    (params : List (String × String)) (prepend : String) : Except String String :=
  match (scanPH cmd.data).foldlM (substStep inTargets outTargets params) cmd with
  | Except.error e => Except.error e
  | Except.ok c => Except.ok (if prepend = "" then c else prepend ++ " " ++ c)

/-! ## String and scanner lemmas -/

/-- Two strings with the same character data are equal. -/
theorem strExt {a b : String} (h : a.data = b.data) : a = b := by
  cases a; cases b; exact congrArg String.mk h

/-- A string is empty exactly when its character data is. -/
theorem str_eq_empty_iff (s : String) : s = "" ↔ s.data = [] := by
  constructor
  · intro h; rw [h]
  · intro h; exact strExt h

/-- The data of a concatenation is the concatenation of the data. -/
theorem strData (a b : String) : (a ++ b).data = a.data ++ b.data := rfl

/-- A string (of a command fragment) that contains no opening brace. -/
def braceFree (s : String) : Prop := ∀ c ∈ s.data, c ≠ lbrace

/-- A legal placeholder name: non-empty and made of name characters only. -/
def validName (n : String) : Prop := n.data ≠ [] ∧ ∀ c ∈ n.data, isNameChar c = true

instance (s : String) : Decidable (braceFree s) := by
  unfold braceFree; infer_instance

instance (n : String) : Decidable (validName n) := by
  unfold validName; infer_instance

theorem scanPH_cons_of_ne (c : Char) (cs : List Char) (h : c ≠ lbrace) :
    scanPH (c :: cs) = scanPH cs := by
  rw [scanPH]; simp [h]

theorem scanPH_nil_of_braceFree (cs : List Char) (h : ∀ c ∈ cs, c ≠ lbrace) :
    scanPH cs = [] := by
  induction cs with
  | nil => rw [scanPH]
  | cons c rest ih =>
    rw [scanPH_cons_of_ne c rest (h c (List.mem_cons_self c rest))]
    exact ih (fun x hx => h x (List.mem_cons_of_mem c hx))

theorem takeWhile_middle (p : Char → Bool) (l r : List Char) (x : Char)
    (hl : ∀ c ∈ l, p c = true) (hx : p x = false) :
    (l ++ x :: r).takeWhile p = l := by
  induction l with
  | nil => simp [List.takeWhile, hx]
  | cons c cs ih =>
    have hc : p c = true := hl c (List.mem_cons_self c cs)
    simp only [List.cons_append, List.takeWhile, hc]
    simp only [List.append_eq]
    rw [ih (fun d hd => hl d (List.mem_cons_of_mem c hd))]

theorem parseAfterBrace_complete (typ : String) (nm post : List Char)
    (hk : matchKindColon (typ.data ++ ':' :: (nm ++ rbrace :: post)) =
            some (typ, nm ++ rbrace :: post))
    (hne : nm ≠ []) (hnc : ∀ c ∈ nm, isNameChar c = true) :
    parseAfterBrace (typ.data ++ ':' :: (nm ++ rbrace :: post)) =
      some (⟨String.mk (lbrace :: (typ.data ++ ':' :: (nm ++ [rbrace]))), typ, String.mk nm⟩,
            typ.data.length + 1 + nm.length + 1) := by
  have hrb : isNameChar rbrace = false := by decide
  have htk : (nm ++ rbrace :: post).takeWhile isNameChar = nm :=
    takeWhile_middle isNameChar nm post rbrace hnc hrb
  have hdrop : (nm ++ rbrace :: post).drop nm.length = rbrace :: post := by
    rw [List.drop_left]
  rw [parseAfterBrace, hk]
  simp only [htk, hdrop, List.isEmpty_iff, hne, if_false, if_pos rfl]
  simp [hne]

theorem scanPH_single (typ : String) (pre nm post : List Char)
    (hpre : ∀ c ∈ pre, c ≠ lbrace) (hpost : ∀ c ∈ post, c ≠ lbrace)
    (hne : nm ≠ []) (hnc : ∀ c ∈ nm, isNameChar c = true)
    (hk : matchKindColon (typ.data ++ ':' :: (nm ++ rbrace :: post)) =
            some (typ, nm ++ rbrace :: post)) :
    scanPH (pre ++ lbrace :: (typ.data ++ ':' :: (nm ++ rbrace :: post))) =
      [⟨String.mk (lbrace :: (typ.data ++ ':' :: (nm ++ [rbrace]))), typ, String.mk nm⟩] := by
  induction pre with
  | nil =>
    simp only [List.nil_append]
    rw [scanPH]
    simp only [if_pos rfl, parseAfterBrace_complete typ nm post hk hne hnc]
    have harr : typ.data ++ ':' :: (nm ++ rbrace :: post) =
        (typ.data ++ ':' :: (nm ++ [rbrace])) ++ post := by
      simp [List.append_assoc]
    have hlen : (typ.data ++ ':' :: (nm ++ [rbrace])).length =
        typ.data.length + 1 + nm.length + 1 := by
      simp [List.length_append]; omega
    rw [harr, ← hlen, List.drop_left, scanPH_nil_of_braceFree post hpost]
    simp
  | cons c cs ih =>
    rw [List.cons_append, scanPH_cons_of_ne c _ (hpre c (List.mem_cons_self c cs))]
    exact ih (fun x hx => hpre x (List.mem_cons_of_mem c hx))

/-! ## Lemmas about the replace loop -/

theorem isPrefixOf_self_append (l r : List Char) : l.isPrefixOf (l ++ r) = true := by
  induction l with
  | nil => simp [List.isPrefixOf]
  | cons c cs ih => simp [List.isPrefixOf, ih]

theorem isPrefixOf_cons_of_ne (o1 c : Char) (orest rest : List Char) (h : c ≠ o1) :
    (o1 :: orest).isPrefixOf (c :: rest) = false := by
  simp [List.isPrefixOf]
  intro he
  exact absurd he.symm h

theorem replaceLoop_copy (o1 : Char) (orest newStr pre tail : List Char)
    (hpre : ∀ c ∈ pre, c ≠ o1) :
    replaceLoop o1 orest newStr (pre ++ tail) = pre ++ replaceLoop o1 orest newStr tail := by
  induction pre with
  | nil => simp
  | cons c cs ih =>
    rw [List.cons_append, replaceLoop]
    rw [if_neg]
    · rw [ih (fun x hx => hpre x (List.mem_cons_of_mem c hx))]
      simp
    · rw [isPrefixOf_cons_of_ne o1 c orest _ (hpre c (List.mem_cons_self c cs))]
      simp

theorem replaceLoop_match (o1 : Char) (orest newStr post : List Char) :
    replaceLoop o1 orest newStr (o1 :: (orest ++ post)) =
      newStr ++ replaceLoop o1 orest newStr post := by
  rw [replaceLoop]
  have h : (o1 :: orest).isPrefixOf (o1 :: (orest ++ post)) = true := by
    rw [← List.cons_append]
    exact isPrefixOf_self_append (o1 :: orest) post
  rw [if_pos (by simp [h]), List.drop_left]

theorem replaceLoop_no_match (o1 : Char) (orest newStr post : List Char)
    (hpost : ∀ c ∈ post, c ≠ o1) :
    replaceLoop o1 orest newStr post = post := by
  have h := replaceLoop_copy o1 orest newStr post [] hpost
  have h0 : replaceLoop o1 orest newStr [] = [] := by rw [replaceLoop]
  rw [h0] at h
  simpa using h

/-- Replacing a brace-headed pattern that occurs exactly once between two
brace-free fragments. -/
theorem replaceAllCh_single (ws newStr pre post : List Char)
    (hpre : ∀ c ∈ pre, c ≠ lbrace) (hpost : ∀ c ∈ post, c ≠ lbrace) :
    replaceAllCh (pre ++ (lbrace :: ws) ++ post) (lbrace :: ws) newStr =
      pre ++ newStr ++ post := by
  show replaceLoop lbrace ws newStr (pre ++ (lbrace :: ws) ++ post) = pre ++ newStr ++ post
  rw [List.append_assoc, replaceLoop_copy lbrace ws newStr pre _ hpre]
  have : (lbrace :: ws) ++ post = lbrace :: (ws ++ post) := by simp
  rw [this, replaceLoop_match, replaceLoop_no_match lbrace ws newStr post hpost]
  simp [List.append_assoc]

/-- The same fact at the `String` level. -/
theorem strReplace_single (whole newStr pre post : String)
    (hw : ∃ ws, whole.data = lbrace :: ws)
    (hpre : braceFree pre) (hpost : braceFree post) :
    strReplace (pre ++ whole ++ post) whole newStr = pre ++ newStr ++ post := by
  obtain ⟨ws, hws⟩ := hw
  apply strExt
  show replaceAllCh (pre ++ whole ++ post).data whole.data newStr.data = (pre ++ newStr ++ post).data
  rw [strData, strData, strData, strData, hws]
  exact replaceAllCh_single ws newStr.data pre.data post.data hpre hpost

/-! ## Behaviour of `formatCommand` on a single placeholder -/

/-- The placeholder text of kind `typ` and name `n`, i.e. the string
`\x7btyp:n\x7d`. -/
def phStr (typ n : String) : String :=
  String.mk (lbrace :: (typ.data ++ ':' :: (n.data ++ [rbrace])))

theorem phStr_eq (typ n : String) :
    phStr typ n = String.mk [lbrace] ++ typ ++ ":" ++ n ++ String.mk [rbrace] := by
  apply strExt
  simp [phStr, strData]

theorem matchKindColon_o (rest : List Char) :
    matchKindColon ('o' :: ':' :: rest) = some ("o", rest) := rfl

theorem matchKindColon_os (rest : List Char) :
    matchKindColon ('o' :: 's' :: ':' :: rest) = some ("os", rest) := rfl

theorem matchKindColon_i (rest : List Char) :
    matchKindColon ('i' :: ':' :: rest) = some ("i", rest) := rfl

theorem matchKindColon_is (rest : List Char) :
    matchKindColon ('i' :: 's' :: ':' :: rest) = some ("is", rest) := rfl

theorem matchKindColon_p (rest : List Char) :
    matchKindColon ('p' :: ':' :: rest) = some ("p", rest) := rfl

/-- A kind string that the regular expression recognises, packaged with the
fact that `matchKindColon` accepts it in front of any remainder. -/
def goodKind (typ : String) : Prop :=
  ∀ rest : List Char, matchKindColon (typ.data ++ ':' :: rest) = some (typ, rest)

theorem goodKind_o : goodKind "o" := fun rest => matchKindColon_o rest

theorem goodKind_os : goodKind "os" := fun rest => matchKindColon_os rest

theorem goodKind_i : goodKind "i" := fun rest => matchKindColon_i rest

theorem goodKind_is : goodKind "is" := fun rest => matchKindColon_is rest

theorem goodKind_p : goodKind "p" := fun rest => matchKindColon_p rest

/-- Scanning a command that consists of brace-free text around one
placeholder finds exactly that placeholder. -/
theorem scanPH_phStr (typ n pre post : String)
    (hpre : braceFree pre) (hpost : braceFree post) (hn : validName n)
    (hk : goodKind typ) :
    scanPH (pre ++ phStr typ n ++ post).data = [⟨phStr typ n, typ, n⟩] := by
  have hdata : (pre ++ phStr typ n ++ post).data =
      pre.data ++ lbrace :: (typ.data ++ ':' :: (n.data ++ rbrace :: post.data)) := by
    rw [strData, strData]
    simp [phStr, List.append_assoc]
  rw [hdata]
  have h := scanPH_single typ pre.data n.data post.data hpre hpost hn.1 hn.2
    (hk (n.data ++ rbrace :: post.data))
  rw [h]
  have hn' : String.mk n.data = n := by cases n; rfl
  rw [hn']
  rfl

/-- With a single placeholder and no prepend, `formatCommand` is one
substitution step. -/
theorem formatCommand_single (typ n pre post : String)
    (ins outs : List (String × FileTarget)) (params : List (String × String))
    (hpre : braceFree pre) (hpost : braceFree post) (hn : validName n)
    (hk : goodKind typ) :
    formatCommand (pre ++ phStr typ n ++ post) ins outs params "" =
      substStep ins outs params (pre ++ phStr typ n ++ post) ⟨phStr typ n, typ, n⟩ := by
  rw [formatCommand, scanPH_phStr typ n pre post hpre hpost hn hk]
  simp only [List.foldlM]
  cases h : substStep ins outs params (pre ++ phStr typ n ++ post) ⟨phStr typ n, typ, n⟩ with
  | error e => simp [h]
  | ok c => simp [h]

theorem phStr_data_cons (typ n : String) :
    ∃ ws, (phStr typ n).data = lbrace :: ws := ⟨_, rfl⟩

/-- The temp path of a target is never the empty string. -/
theorem tempPath_ne_empty (t : FileTarget) : t.GetTempPath ≠ "" := by
  intro h
  rw [str_eq_empty_iff] at h
  simp [FileTarget.GetTempPath, strData] at h

/-- The FIFO path of a target is never the empty string. -/
theorem fifoPath_ne_empty (t : FileTarget) : t.GetFifoPath ≠ "" := by
  intro h
  rw [str_eq_empty_iff] at h
  simp [FileTarget.GetFifoPath, strData] at h

/-- `\x7bo:n\x7d` becomes the output target's temp path. -/
theorem formatCommand_o_found (n pre post : String)
    (ins outs : List (String × FileTarget)) (params : List (String × String))
    (tgt : FileTarget)
    (hpre : braceFree pre) (hpost : braceFree post) (hn : validName n)
    (hl : lookupFT outs n = some tgt) :
    formatCommand (pre ++ phStr "o" n ++ post) ins outs params "" =
      Except.ok (pre ++ tgt.GetTempPath ++ post) := by
  rw [formatCommand_single "o" n pre post ins outs params hpre hpost hn goodKind_o]
  rw [substStep]
  simp only [hl]
  simp [tempPath_ne_empty tgt]
  rw [strReplace_single (phStr "o" n) tgt.GetTempPath pre post (phStr_data_cons "o" n) hpre hpost]

/-- `\x7bos:n\x7d` becomes the output target's FIFO path. -/
theorem formatCommand_os_found (n pre post : String)
    (ins outs : List (String × FileTarget)) (params : List (String × String))
    (tgt : FileTarget)
    (hpre : braceFree pre) (hpost : braceFree post) (hn : validName n)
    (hl : lookupFT outs n = some tgt) :
    formatCommand (pre ++ phStr "os" n ++ post) ins outs params "" =
      Except.ok (pre ++ tgt.GetFifoPath ++ post) := by
  rw [formatCommand_single "os" n pre post ins outs params hpre hpost hn goodKind_os]
  rw [substStep]
  simp only [hl]
  simp [fifoPath_ne_empty tgt]
  rw [strReplace_single (phStr "os" n) tgt.GetFifoPath pre post (phStr_data_cons "os" n) hpre hpost]

/-- `\x7bi:n\x7d` becomes the input target's FIFO path when it streams. -/
theorem formatCommand_i_stream (n pre post : String)
    (ins outs : List (String × FileTarget)) (params : List (String × String))
    (tgt : FileTarget)
    (hpre : braceFree pre) (hpost : braceFree post) (hn : validName n)
    (hl : lookupFT ins n = some tgt) (hp : tgt.GetPath ≠ "") (hs : tgt.doStream = true) :
    formatCommand (pre ++ phStr "i" n ++ post) ins outs params "" =
      Except.ok (pre ++ tgt.GetFifoPath ++ post) := by
  rw [formatCommand_single "i" n pre post ins outs params hpre hpost hn goodKind_i]
  rw [substStep]
  simp only [hl]
  simp [hp, hs, fifoPath_ne_empty tgt]
  rw [strReplace_single (phStr "i" n) tgt.GetFifoPath pre post (phStr_data_cons "i" n) hpre hpost]

/-- `\x7bi:n\x7d` becomes the input target's final path when it does not
stream. -/
theorem formatCommand_i_plain (n pre post : String)
    (ins outs : List (String × FileTarget)) (params : List (String × String))
    (tgt : FileTarget)
    (hpre : braceFree pre) (hpost : braceFree post) (hn : validName n)
    (hl : lookupFT ins n = some tgt) (hp : tgt.GetPath ≠ "") (hs : tgt.doStream = false) :
    formatCommand (pre ++ phStr "i" n ++ post) ins outs params "" =
      Except.ok (pre ++ tgt.GetPath ++ post) := by
  rw [formatCommand_single "i" n pre post ins outs params hpre hpost hn goodKind_i]
  rw [substStep]
  simp only [hl]
  simp [hp, hs]
  rw [strReplace_single (phStr "i" n) tgt.GetPath pre post (phStr_data_cons "i" n) hpre hpost]

/-- `\x7bp:n\x7d` becomes the parameter value when it is non-empty. -/
theorem formatCommand_p_found (n pre post : String)
    (ins outs : List (String × FileTarget)) (params : List (String × String))
    (hpre : braceFree pre) (hpost : braceFree post) (hn : validName n)
    (hv : paramGet params n ≠ "") :
    formatCommand (pre ++ phStr "p" n ++ post) ins outs params "" =
      Except.ok (pre ++ paramGet params n ++ post) := by
  rw [formatCommand_single "p" n pre post ins outs params hpre hpost hn goodKind_p]
  rw [substStep]
  simp [hv]
  rw [strReplace_single (phStr "p" n) (paramGet params n) pre post (phStr_data_cons "p" n) hpre hpost]

/-- An unknown output port is a hard error. -/
theorem formatCommand_o_missing (typ n pre post : String)
    (ins outs : List (String × FileTarget)) (params : List (String × String))
    (hpre : braceFree pre) (hpost : braceFree post) (hn : validName n)
    (htyp : typ = "o" ∨ typ = "os")
    (hl : lookupFT outs n = none) :
    ∃ e, formatCommand (pre ++ phStr typ n ++ post) ins outs params "" = Except.error e := by
  have hk : goodKind typ := by cases htyp with
    | inl h => rw [h]; exact goodKind_o
    | inr h => rw [h]; exact goodKind_os
  rw [formatCommand_single typ n pre post ins outs params hpre hpost hn hk]
  rw [substStep]
  rw [if_pos htyp, hl]
  exact ⟨_, rfl⟩

theorem goodKind_of_out (typ : String) (htyp : typ = "o" ∨ typ = "os") : goodKind typ := by
  cases htyp with
  | inl h => rw [h]; exact goodKind_o
  | inr h => rw [h]; exact goodKind_os

/-- An unknown input port is a hard error. -/
theorem formatCommand_i_missing (n pre post : String)
    (ins outs : List (String × FileTarget)) (params : List (String × String))
    (hpre : braceFree pre) (hpost : braceFree post) (hn : validName n)
    (hl : lookupFT ins n = none) :
    ∃ e, formatCommand (pre ++ phStr "i" n ++ post) ins outs params "" = Except.error e := by
  rw [formatCommand_single "i" n pre post ins outs params hpre hpost hn goodKind_i]
  rw [substStep]
  simp only [hl]
  simp

/-- An input target with an empty path is a hard error. -/
theorem formatCommand_i_empty (n pre post : String)
    (ins outs : List (String × FileTarget)) (params : List (String × String))
    (tgt : FileTarget)
    (hpre : braceFree pre) (hpost : braceFree post) (hn : validName n)
    (hl : lookupFT ins n = some tgt) (hp : tgt.GetPath = "") :
    ∃ e, formatCommand (pre ++ phStr "i" n ++ post) ins outs params "" = Except.error e := by
  rw [formatCommand_single "i" n pre post ins outs params hpre hpost hn goodKind_i]
  rw [substStep]
  simp only [hl]
  simp [hp]

/-- A missing or empty parameter value is a hard error. -/
theorem formatCommand_p_empty (n pre post : String)
    (ins outs : List (String × FileTarget)) (params : List (String × String))
    (hpre : braceFree pre) (hpost : braceFree post) (hn : validName n)
    (hv : paramGet params n = "") :
    ∃ e, formatCommand (pre ++ phStr "p" n ++ post) ins outs params "" = Except.error e := by
  rw [formatCommand_single "p" n pre post ins outs params hpre hpost hn goodKind_p]
  rw [substStep]
  simp [hv]

/-- An `is` placeholder is given no substitution branch, so its empty
`newstr` is rejected with the exact "Replace failed" message. -/
theorem formatCommand_is_replace_failed (n pre post : String)
    (ins outs : List (String × FileTarget)) (params : List (String × String))
    (hpre : braceFree pre) (hpost : braceFree post) (hn : validName n) :
    formatCommand (pre ++ phStr "is" n ++ post) ins outs params "" =
      Except.error ("Replace failed for port " ++ n ++ " forcommand \x27" ++
        (pre ++ phStr "is" n ++ post) ++ "\x27") := by
  rw [formatCommand_single "is" n pre post ins outs params hpre hpost hn goodKind_is]
  rw [substStep]
  simp

/-- A non-empty prepend string is put in front of the substituted command,
separated by one space. -/
theorem formatCommand_prepend (cmd prep : String)
    (ins outs : List (String × FileTarget)) (params : List (String × String))
    (hp : prep ≠ "") :
    formatCommand cmd ins outs params prep =
      Except.map (fun s => prep ++ " " ++ s) (formatCommand cmd ins outs params "") := by
  rw [formatCommand, formatCommand]
  cases h : (scanPH cmd.data).foldlM (substStep ins outs params) cmd with
  | error e => simp [Except.map]
  | ok c => simp [Except.map, if_neg hp]

/-- Claim C1: for every command template, input-target map, output-target
map, parameter map and prepend string, the command formatter replaces an
`\x7bo:N\x7d` placeholder with output N's temp path `P.tmp`, an
`\x7bos:N\x7d` placeholder with output N's FIFO path `P.fifo`, an
`\x7bi:N\x7d` placeholder with input N's FIFO path when that input's
streaming flag is set and with its final path otherwise, and a
`\x7bp:N\x7d` placeholder with parameter N's value; any missing binding
(unknown port, empty input path, empty parameter) or empty substitution
result is a hard error; and when prepend is non-empty the final command is
the prepend string, a space, and the substituted command. -/
theorem claim_C1_formatCommand :
    (∀ n pre post ins outs params tgt, braceFree pre → braceFree post → validName n →
      lookupFT outs n = some tgt →
      formatCommand (pre ++ phStr "o" n ++ post) ins outs params "" =
        Except.ok (pre ++ tgt.GetTempPath ++ post)) ∧
    (∀ n pre post ins outs params tgt, braceFree pre → braceFree post → validName n →
      lookupFT outs n = some tgt →
      formatCommand (pre ++ phStr "os" n ++ post) ins outs params "" =
        Except.ok (pre ++ tgt.GetFifoPath ++ post)) ∧
    (∀ n pre post ins outs params tgt, braceFree pre → braceFree post → validName n →
      lookupFT ins n = some tgt → tgt.GetPath ≠ "" → tgt.doStream = true →
      formatCommand (pre ++ phStr "i" n ++ post) ins outs params "" =
        Except.ok (pre ++ tgt.GetFifoPath ++ post)) ∧
    (∀ n pre post ins outs params tgt, braceFree pre → braceFree post → validName n →
      lookupFT ins n = some tgt → tgt.GetPath ≠ "" → tgt.doStream = false →
      formatCommand (pre ++ phStr "i" n ++ post) ins outs params "" =
        Except.ok (pre ++ tgt.GetPath ++ post)) ∧
    (∀ n pre post ins outs params, braceFree pre → braceFree post → validName n →
      paramGet params n ≠ "" →
      formatCommand (pre ++ phStr "p" n ++ post) ins outs params "" =
        Except.ok (pre ++ paramGet params n ++ post)) ∧
    (∀ typ n pre post ins outs params, braceFree pre → braceFree post → validName n →
      typ = "o" ∨ typ = "os" → lookupFT outs n = none →
      ∃ e, formatCommand (pre ++ phStr typ n ++ post) ins outs params "" = Except.error e) ∧
    (∀ n pre post ins outs params, braceFree pre → braceFree post → validName n →
      lookupFT ins n = none →
      ∃ e, formatCommand (pre ++ phStr "i" n ++ post) ins outs params "" = Except.error e) ∧
    (∀ n pre post ins outs params tgt, braceFree pre → braceFree post → validName n →
      lookupFT ins n = some tgt → tgt.GetPath = "" →
      ∃ e, formatCommand (pre ++ phStr "i" n ++ post) ins outs params "" = Except.error e) ∧
    (∀ n pre post ins outs params, braceFree pre → braceFree post → validName n →
      paramGet params n = "" →
      ∃ e, formatCommand (pre ++ phStr "p" n ++ post) ins outs params "" = Except.error e) ∧
    (∀ n pre post ins outs params, braceFree pre → braceFree post → validName n →
      ∃ e, formatCommand (pre ++ phStr "is" n ++ post) ins outs params "" = Except.error e) ∧
    (∀ cmd prep ins outs params, prep ≠ "" →
      formatCommand cmd ins outs params prep =
        Except.map (fun s => prep ++ " " ++ s) (formatCommand cmd ins outs params "")) := by
  refine ⟨?_, ?_, ?_, ?_, ?_, ?_, ?_, ?_, ?_, ?_, ?_⟩
  · intro n pre post ins outs params tgt hpre hpost hn hl
    exact formatCommand_o_found n pre post ins outs params tgt hpre hpost hn hl
  · intro n pre post ins outs params tgt hpre hpost hn hl
    exact formatCommand_os_found n pre post ins outs params tgt hpre hpost hn hl
  · intro n pre post ins outs params tgt hpre hpost hn hl hp hs
    exact formatCommand_i_stream n pre post ins outs params tgt hpre hpost hn hl hp hs
  · intro n pre post ins outs params tgt hpre hpost hn hl hp hs
    exact formatCommand_i_plain n pre post ins outs params tgt hpre hpost hn hl hp hs
  · intro n pre post ins outs params hpre hpost hn hv
    exact formatCommand_p_found n pre post ins outs params hpre hpost hn hv
  · intro typ n pre post ins outs params hpre hpost hn htyp hl
    exact formatCommand_o_missing typ n pre post ins outs params hpre hpost hn htyp hl
  · intro n pre post ins outs params hpre hpost hn hl
    exact formatCommand_i_missing n pre post ins outs params hpre hpost hn hl
  · intro n pre post ins outs params tgt hpre hpost hn hl hp
    exact formatCommand_i_empty n pre post ins outs params tgt hpre hpost hn hl hp
  · intro n pre post ins outs params hpre hpost hn hv
    exact formatCommand_p_empty n pre post ins outs params hpre hpost hn hv
  · intro n pre post ins outs params hpre hpost hn
    exact ⟨_, formatCommand_is_replace_failed n pre post ins outs params hpre hpost hn⟩
  · intro cmd prep ins outs params hp
    exact formatCommand_prepend cmd prep ins outs params hp

/-- Concrete instances of claim C1, each obtained by applying the claim
theorem and discharging its hypotheses at the given input. -/
theorem claim_C1_formatCommand_witness :
    formatCommand ("cat " ++ phStr "o" "out" ++ "") []
        [("out", ⟨"f.txt", false⟩)] [] "" =
      Except.ok ("cat " ++ FileTarget.GetTempPath ⟨"f.txt", false⟩ ++ "") ∧
    formatCommand ("wc -l " ++ phStr "i" "x" ++ " > y")
        [("x", ⟨"s.txt", true⟩)] [] [] "" =
      Except.ok ("wc -l " ++ FileTarget.GetFifoPath ⟨"s.txt", true⟩ ++ " > y") ∧
    formatCommand ("echo " ++ phStr "p" "msg" ++ " end") [] [] [("msg", "v")] "" =
      Except.ok ("echo " ++ paramGet [("msg", "v")] "msg" ++ " end") ∧
    (∃ e, formatCommand ("" ++ phStr "is" "q" ++ "") [] [] [] "" = Except.error e) ∧
    formatCommand "ls" [] [] [] "time" =
      Except.map (fun s => "time" ++ " " ++ s) (formatCommand "ls" [] [] [] "") := by
  refine ⟨?_, ?_, ?_, ?_, ?_⟩
  · exact claim_C1_formatCommand.1 "out" "cat " "" [] [("out", ⟨"f.txt", false⟩)] []
      ⟨"f.txt", false⟩ (by decide) (by decide) (by decide) rfl
  · exact claim_C1_formatCommand.2.2.1 "x" "wc -l " " > y" [("x", ⟨"s.txt", true⟩)] [] []
      ⟨"s.txt", true⟩ (by decide) (by decide) (by decide) rfl (by decide) rfl
  · exact claim_C1_formatCommand.2.2.2.2.1 "msg" "echo " " end" [] [] [("msg", "v")]
      (by decide) (by decide) (by decide) (by decide)
  · exact claim_C1_formatCommand.2.2.2.2.2.2.2.2.2.1 "q" "" "" [] [] []
      (by decide) (by decide) (by decide)
  · exact claim_C1_formatCommand.2.2.2.2.2.2.2.2.2.2 "ls" "time" [] [] [] (by decide)

/-! ## Port registration from the command pattern -/

/-- The port structure a `ShellProcess` builds from its command pattern: the
registered input, output, streaming-output and parameter port names.  The Go
code stores these as maps keyed by name; we record the registered names. -/
structure Ports where
  inPorts : List String
  outPorts : List String
  streamOutPorts : List String
  paramPorts : List String
deriving DecidableEq, Repr

/-- One step of `initPortsFromCmdPattern`: register the ports demanded by a
single placeholder match. -/
def initStep (params : Option (List (String × String))) (P : Ports) (m : PHMatch) : Ports :=
  if m.typ = "o" ∨ m.typ = "os" then
    { P with outPorts := P.outPorts ++ [m.name],
             streamOutPorts :=
               if m.typ = "os" then P.streamOutPorts ++ [m.name] else P.streamOutPorts }
  else if m.typ = "i" then
    { P with inPorts := P.inPorts ++ [m.name] }
  else if m.typ = "p" then
    match params with
    | none => { P with paramPorts := P.paramPorts ++ [m.name] }
    | some ps =>
      if paramGet ps m.name = "" then { P with paramPorts := P.paramPorts ++ [m.name] }
      else P
  else P

/-- `initPortsFromCmdPattern`: fold the registration step over all
placeholder matches of the command pattern. -/
def initPortsFromCmdPattern (cmd : String) (params : Option (List (String × String))) : Ports :=
  (scanPH cmd.data).foldl (initStep params) ⟨[], [], [], []⟩

/-- `substStep` on an `is` match is exactly the "Replace failed" error. -/
theorem substStep_is (ins outs : List (String × FileTarget))
    (params : List (String × String)) (c w n : String) :
    substStep ins outs params c ⟨w, "is", n⟩ =
      Except.error ("Replace failed for port " ++ n ++ " forcommand \x27" ++ c ++ "\x27") := by
  rw [substStep]
  simp

/-- If any match in the list has kind `is`, the substitution fold fails. -/
theorem foldlM_substStep_error (ins outs : List (String × FileTarget))
    (params : List (String × String)) (ms : List PHMatch) (c : String)
    (h : ∃ m ∈ ms, m.typ = "is") :
    ∃ e, ms.foldlM (substStep ins outs params) c = Except.error e := by
  induction ms generalizing c with
  | nil => obtain ⟨m, hm, _⟩ := h; exact absurd hm (List.not_mem_nil m)
  | cons m0 rest ih =>
    by_cases h0 : m0.typ = "is"
    · have : substStep ins outs params c m0 = Except.error
          ("Replace failed for port " ++ m0.name ++ " forcommand \x27" ++ c ++ "\x27") := by
        have hm0 : m0 = ⟨m0.whole, "is", m0.name⟩ := by
          cases m0; simp_all
        rw [hm0]
        exact substStep_is ins outs params c m0.whole m0.name
      refine ⟨"Replace failed for port " ++ m0.name ++ " forcommand \x27" ++ c ++ "\x27", ?_⟩
      simp only [List.foldlM, this]
      rfl
    · obtain ⟨m, hm, hty⟩ := h
      have hmr : m ∈ rest := by
        cases List.mem_cons.mp hm with
        | inl he => rw [he] at hty; exact absurd hty h0
        | inr hr => exact hr
      cases hs : substStep ins outs params c m0 with
      | error e =>
        refine ⟨e, ?_⟩
        simp only [List.foldlM, hs]
        rfl
      | ok c1 =>
        obtain ⟨e, he⟩ := ih c1 ⟨m, hmr, hty⟩
        refine ⟨e, ?_⟩
        simp only [List.foldlM, hs]
        exact he

/-- Claim C10 (implicit): although the public placeholder regex accepts the
kind `is`, an `\x7bis:name\x7d` placeholder is neither registered as any
port during process construction nor given a substitution branch in the
command formatter, so any command template containing an `\x7bis:name\x7d`
placeholder makes task construction fail with the fatal "Replace failed"
empty-substitution error. -/
theorem claim_C10_is_kind :
    (∀ n pre post, braceFree pre → braceFree post → validName n →
      scanPH (pre ++ phStr "is" n ++ post).data = [⟨phStr "is" n, "is", n⟩]) ∧
    (∀ params P m, m.typ = "is" → initStep params P m = P) ∧
    (∀ ins outs params c w n, substStep ins outs params c ⟨w, "is", n⟩ =
      Except.error ("Replace failed for port " ++ n ++ " forcommand \x27" ++ c ++ "\x27")) ∧
    (∀ n pre post ins outs params, braceFree pre → braceFree post → validName n →
      formatCommand (pre ++ phStr "is" n ++ post) ins outs params "" =
        Except.error ("Replace failed for port " ++ n ++ " forcommand \x27" ++
          (pre ++ phStr "is" n ++ post) ++ "\x27")) ∧
    (∀ cmd ins outs params prepend, (∃ m ∈ scanPH cmd.data, m.typ = "is") →
      ∃ e, formatCommand cmd ins outs params prepend = Except.error e) := by
  refine ⟨?_, ?_, ?_, ?_, ?_⟩
  · intro n pre post hpre hpost hn
    exact scanPH_phStr "is" n pre post hpre hpost hn goodKind_is
  · intro params P m hm
    rw [initStep.eq_def, hm]
    simp
  · intro ins outs params c w n
    exact substStep_is ins outs params c w n
  · intro n pre post ins outs params hpre hpost hn
    exact formatCommand_is_replace_failed n pre post ins outs params hpre hpost hn
  · intro cmd ins outs params prepend h
    obtain ⟨e, he⟩ := foldlM_substStep_error ins outs params (scanPH cmd.data) cmd h
    refine ⟨e, ?_⟩
    rw [formatCommand, he]

/-- Concrete instance of claim C10 at the template `\x7bis:q\x7d x`. -/
theorem claim_C10_is_kind_witness :
    scanPH ("" ++ phStr "is" "q" ++ " x").data = [⟨phStr "is" "q", "is", "q"⟩] ∧
    initStep none ⟨[], [], [], []⟩ ⟨phStr "is" "q", "is", "q"⟩ = ⟨[], [], [], []⟩ ∧
    formatCommand ("" ++ phStr "is" "q" ++ " x") [] [] [] "" =
      Except.error ("Replace failed for port " ++ "q" ++ " forcommand \x27" ++
        ("" ++ phStr "is" "q" ++ " x") ++ "\x27") := by
  refine ⟨?_, ?_, ?_⟩
  · exact claim_C10_is_kind.1 "q" "" " x" (by decide) (by decide) (by decide)
  · exact claim_C10_is_kind.2.1 none ⟨[], [], [], []⟩ ⟨phStr "is" "q", "is", "q"⟩ rfl
  · exact claim_C10_is_kind.2.2.2.1 "q" "" " x" [] [] [] (by decide) (by decide) (by decide)

/-! ## Parameter ports -/

/-- Model of a `ParamPort`: the identity of its string channel (or `none`
when no channel was initialized yet) and its connected flag.  Channel
identities are drawn from `Nat`. -/
structure ParamPort where
  chan : Option Nat
  connected : Bool
deriving DecidableEq, Repr

/-- `ParamPort.Connect`: share one channel between the two peer ports.  The
caller supplies the identity `fresh` of the channel that would be newly
allocated in the both-`nil` branch.  The `os.Exit(1)` taken when both ports
already have channels is the error result. -/
def ParamPort.Connect (pp other : ParamPort) (fresh : Nat) :
    Except String (ParamPort × ParamPort) :=
  if pp.chan ≠ none ∧ other.chan ≠ none then
    Except.error "Both paramports already have initialized channels, so can\x27t choose which to use!"
  else if pp.chan ≠ none ∧ other.chan = none then
    Except.ok ({ pp with connected := true }, { other with chan := pp.chan, connected := true })
  else if other.chan ≠ none ∧ pp.chan = none then
    Except.ok ({ pp with chan := other.chan, connected := true }, { other with connected := true })
  else
    Except.ok ({ pp with chan := some fresh, connected := true },
               { other with chan := some fresh, connected := true })

/-- Claim C6: connecting two parameter ports is a hard error when both
already hold a channel; otherwise after the call the two ports hold the
identical underlying channel — a fresh one when neither had a channel, the
existing one when exactly one did — and both ports are marked connected. -/
theorem claim_C6_paramPort_connect (pp other : ParamPort) (fresh : Nat) :
    (pp.chan.isSome = true → other.chan.isSome = true →
      ∃ e, ParamPort.Connect pp other fresh = Except.error e) ∧
    (∀ pp2 other2, ParamPort.Connect pp other fresh = Except.ok (pp2, other2) →
      pp2.chan = other2.chan ∧ pp2.chan.isSome = true ∧
      pp2.connected = true ∧ other2.connected = true ∧
      (pp.chan = none → other.chan = none → pp2.chan = some fresh) ∧
      (pp.chan.isSome = true → pp2.chan = pp.chan) ∧
      (other.chan.isSome = true → other2.chan = other.chan)) := by
  constructor
  · intro h1 h2
    have hc1 : pp.chan ≠ none := Option.isSome_iff_ne_none.mp h1
    have hc2 : other.chan ≠ none := Option.isSome_iff_ne_none.mp h2
    rw [ParamPort.Connect, if_pos ⟨hc1, hc2⟩]
    exact ⟨_, rfl⟩
  · intro pp2 other2 hok
    cases hpc : pp.chan with
    | some c1 =>
      cases hoc : other.chan with
      | some c2 =>
        rw [ParamPort.Connect] at hok
        rw [if_pos ⟨by rw [hpc]; simp, by rw [hoc]; simp⟩] at hok
        exact absurd hok (by simp)
      | none =>
        rw [ParamPort.Connect] at hok
        rw [if_neg (by rw [hoc]; simp), if_pos ⟨by rw [hpc]; simp, hoc⟩] at hok
        injection hok with hpair
        injection hpair with h1 h2
        subst h1; subst h2
        simp [hpc, hoc]
    | none =>
      cases hoc : other.chan with
      | some c2 =>
        rw [ParamPort.Connect] at hok
        rw [if_neg (by rw [hpc]; simp), if_neg (by rw [hpc]; simp),
            if_pos ⟨by rw [hoc]; simp, hpc⟩] at hok
        injection hok with hpair
        injection hpair with h1 h2
        subst h1; subst h2
        simp [hpc, hoc]
      | none =>
        rw [ParamPort.Connect] at hok
        rw [if_neg (by rw [hpc]; simp), if_neg (by rw [hpc]; simp),
            if_neg (by rw [hoc]; simp)] at hok
        injection hok with hpair
        injection hpair with h1 h2
        subst h1; subst h2
        simp [hpc, hoc]

/-- Concrete instances of claim C6: the both-initialized pair errors, and a
fresh pair ends up sharing channel 7 with both flags set. -/
theorem claim_C6_paramPort_connect_witness :
    (∃ e, ParamPort.Connect ⟨some 0, true⟩ ⟨some 1, false⟩ 5 = Except.error e) ∧
    ((⟨some 7, true⟩ : ParamPort).chan = (⟨some 7, true⟩ : ParamPort).chan ∧
     (⟨some 7, true⟩ : ParamPort).chan.isSome = true ∧
     (⟨some 7, true⟩ : ParamPort).connected = true ∧
     (⟨some 7, true⟩ : ParamPort).connected = true ∧
     ((⟨none, false⟩ : ParamPort).chan = none → (⟨none, false⟩ : ParamPort).chan = none →
       (⟨some 7, true⟩ : ParamPort).chan = some 7) ∧
     ((⟨none, false⟩ : ParamPort).chan.isSome = true →
       (⟨some 7, true⟩ : ParamPort).chan = (⟨none, false⟩ : ParamPort).chan) ∧
     ((⟨none, false⟩ : ParamPort).chan.isSome = true →
       (⟨some 7, true⟩ : ParamPort).chan = (⟨none, false⟩ : ParamPort).chan)) :=
  ⟨(claim_C6_paramPort_connect ⟨some 0, true⟩ ⟨some 1, false⟩ 5).1 rfl rfl,
   (claim_C6_paramPort_connect ⟨none, false⟩ ⟨none, false⟩ 7).2
     ⟨some 7, true⟩ ⟨some 7, true⟩ rfl⟩

/-! ## File-port input merging

`FilePort.RunMergeInputs` round-robins over the inbound channels: one
blocking receive per channel in list order; on a closed channel it deletes
that channel and restarts the sweep; it closes the merged channel when no
inbound channel is left.  Each inbound channel is modelled by the list of
values sent on it before its closure, so a receive takes the head and an
exhausted list is an observed closure. -/

/-- One inner sweep of the merge loop: walk the channels in order, forward
one value from each, and on the first closed channel delete it and break,
leaving the later channels untouched.  Returns the forwarded values and the
updated channel list. -/
def sweep {α : Type} : List (List α) → List α × List (List α)
  | [] => ([], [])
  | [] :: rest => ([], rest)
  | (x :: xs) :: rest => (x :: (sweep rest).1, xs :: (sweep rest).2)

/-- Total number of values still queued on the channels. -/
def totalLen {α : Type} (chans : List (List α)) : Nat := (chans.map List.length).sum

theorem sweep_total {α : Type} (chans : List (List α)) :
    (sweep chans).1.length + totalLen (sweep chans).2 = totalLen chans := by
  induction chans with
  | nil => rfl
  | cons c0 rest ih =>
    cases c0 with
    | nil => simp [sweep, totalLen]
    | cons x xs =>
      simp only [sweep, List.length_cons, totalLen, List.map_cons, List.sum_cons] at ih ⊢
      omega

theorem sweep_measure {α : Type} (chans : List (List α)) (h : chans ≠ []) :
    totalLen (sweep chans).2 + (sweep chans).2.length < totalLen chans + chans.length := by
  induction chans with
  | nil => exact absurd rfl h
  | cons c0 rest ih =>
    cases c0 with
    | nil => simp [sweep, totalLen]
    | cons x xs =>
      cases rest with
      | nil => simp [sweep, totalLen]
      | cons c1 rest1 =>
        have hr := ih (by simp)
        simp only [sweep, totalLen, List.map_cons, List.sum_cons, List.length_cons] at hr ⊢
        omega

/-- The values emitted on the merged channel, in order, over the lifetime of
the merge loop; the loop exits (and the merged channel is closed) when all
inbound channels have been deleted. -/
def RunMergeInputs {α : Type} : List (List α) → List α
  | [] => []
  | c :: cs => (sweep (c :: cs)).1 ++ RunMergeInputs (sweep (c :: cs)).2
termination_by chans => totalLen chans + chans.length
decreasing_by
  exact sweep_measure _ (by simp)

theorem runMergeInputs_length_aux {α : Type} :
    ∀ (N : Nat) (chans : List (List α)), totalLen chans + chans.length ≤ N →
      (RunMergeInputs chans).length = totalLen chans := by
  intro N
  induction N with
  | zero =>
    intro chans h
    match chans with
    | [] => rw [RunMergeInputs]; rfl
    | c :: cs => simp [totalLen] at h
  | succ n ih =>
    intro chans h
    match chans with
    | [] => rw [RunMergeInputs]; rfl
    | c :: cs =>
      rw [RunMergeInputs]
      have hm := sweep_measure (c :: cs) (by simp)
      have ht := sweep_total (c :: cs)
      have hrec := ih (sweep (c :: cs)).2 (by omega)
      simp only [List.length_append, hrec]
      omega

theorem sweep_sublist {α : Type} :
    ∀ (chans : List (List α)) (i : Nat) (c : List α), chans[i]? = some c →
      ∀ (rec : List α),
        (∀ (j : Nat) (d : List α), (sweep chans).2[j]? = some d → List.Sublist d rec) →
        List.Sublist c ((sweep chans).1 ++ rec) := by
  intro chans
  induction chans with
  | nil => intro i c hc; simp at hc
  | cons c0 rest ih =>
    intro i c hc rec h
    cases c0 with
    | nil =>
      cases i with
      | zero =>
        simp only [List.getElem?_cons_zero, Option.some.injEq] at hc
        subst hc
        exact List.nil_sublist _
      | succ j =>
        simp only [List.getElem?_cons_succ] at hc
        have hd := h j c (by simpa [sweep] using hc)
        simp only [sweep, List.nil_append]
        exact hd
    | cons x xs =>
      cases i with
      | zero =>
        simp only [List.getElem?_cons_zero, Option.some.injEq] at hc
        subst hc
        have hxs : List.Sublist xs rec := h 0 xs (by simp [sweep])
        have hxs2 : List.Sublist xs ((sweep rest).1 ++ rec) :=
          hxs.trans (List.sublist_append_right _ _)
        simp only [sweep, List.cons_append]
        exact List.Sublist.cons₂ x hxs2
      | succ j =>
        simp only [List.getElem?_cons_succ] at hc
        have hrec : ∀ (k : Nat) (d : List α), (sweep rest).2[k]? = some d → List.Sublist d rec := by
          intro k d hk
          exact h (k + 1) d (by simpa [sweep] using hk)
        have := ih j c hc rec hrec
        simp only [sweep, List.cons_append]
        exact List.Sublist.cons x this

theorem runMergeInputs_sublist_aux {α : Type} :
    ∀ (N : Nat) (chans : List (List α)), totalLen chans + chans.length ≤ N →
      ∀ (i : Nat) (c : List α), chans[i]? = some c → List.Sublist c (RunMergeInputs chans) := by
  intro N
  induction N with
  | zero =>
    intro chans h i c hc
    match chans with
    | [] => simp at hc
    | c0 :: cs => simp [totalLen] at h
  | succ n ih =>
    intro chans h i c hc
    match chans with
    | [] => simp at hc
    | c0 :: cs =>
      rw [RunMergeInputs]
      apply sweep_sublist (c0 :: cs) i c hc
      intro j d hd
      have hm := sweep_measure (c0 :: cs) (by simp)
      exact ih (sweep (c0 :: cs)).2 (by omega) j d hd

/-- Claim C3: for every file port with any number of inbound channels, the
merger forwards onto the merged channel every IP sent on any inbound channel
before that channel's closure — the count of IPs emitted on merged equals
the total count sent on all inbound channels — preserving each inbound
channel's internal order; the merge loop terminates (closing merged) exactly
when every inbound channel has been observed closed and drained. -/
theorem claim_C3_runMergeInputs (chans : List (List FileTarget)) :
    (RunMergeInputs chans).length = totalLen chans ∧
    (∀ (i : Nat) (c : List FileTarget), chans[i]? = some c →
      List.Sublist c (RunMergeInputs chans)) := by
  constructor
  · exact runMergeInputs_length_aux (totalLen chans + chans.length) chans (Nat.le_refl _)
  · intro i c hc
    exact runMergeInputs_sublist_aux (totalLen chans + chans.length) chans (Nat.le_refl _) i c hc

/-- Concrete instance of claim C3 on two inbound channels with three IPs. -/
theorem claim_C3_runMergeInputs_witness :
    (RunMergeInputs [[FileTarget.mk "a" false, FileTarget.mk "b" false],
        [FileTarget.mk "c" true]]).length =
      totalLen [[FileTarget.mk "a" false, FileTarget.mk "b" false],
        [FileTarget.mk "c" true]] ∧
    List.Sublist [FileTarget.mk "a" false, FileTarget.mk "b" false]
      (RunMergeInputs [[FileTarget.mk "a" false, FileTarget.mk "b" false],
        [FileTarget.mk "c" true]]) :=
  ⟨(claim_C3_runMergeInputs _).1,
   (claim_C3_runMergeInputs _).2 0 [FileTarget.mk "a" false, FileTarget.mk "b" false] rfl⟩

/-! ## Task execution against the filesystem

The filesystem is modelled as the set of paths that currently exist; the
`os.Stat`-based checks of `ShellTask` read it, `createFifos` and `Atomize`
update it. -/

/-- Filesystem model: which paths exist on disk. -/
abbrev FS : Type := String → Bool

/-- `anyOutputExists`: some non-streaming output target already exists at
its final or its temp path. -/
def anyOutputExists (outs : List (String × FileTarget)) (fs : FS) : Bool :=
  outs.any (fun kv => !kv.2.doStream && (fs kv.2.GetPath || fs kv.2.GetTempPath))

/-- `fifosInOutTargetsMissing`: some streaming output target's FIFO is
missing on disk. -/
def fifosInOutTargetsMissing (outs : List (String × FileTarget)) (fs : FS) : Bool :=
  outs.any (fun kv => kv.2.doStream && !(fs kv.2.GetFifoPath))

/-- `anyFifosExist`: some streaming output target's FIFO already exists. -/
def anyFifosExist (outs : List (String × FileTarget)) (fs : FS) : Bool :=
  outs.any (fun kv => kv.2.doStream && fs kv.2.GetFifoPath)

/-- `createFifos`: make every streaming output target's FIFO exist. -/
def createFifosFS (outs : List (String × FileTarget)) (fs : FS) : FS :=
  fun p => if outs.any (fun kv => kv.2.doStream && (kv.2.GetFifoPath == p)) then true else fs p

/-- `InformationPacket.Atomize`: rename the temp path to the final path.
The source retries with a one-second sleep until the temp file is observed
on disk; against an otherwise static filesystem that loop terminates exactly
when the temp file exists, so the model returns `none` (the retry loop never
returns) when it does not. -/
def atomizeFS (tgt : FileTarget) (fs : FS) : Option FS :=
  if fs tgt.GetTempPath then
    some (fun p => if p = tgt.GetPath then true else if p = tgt.GetTempPath then false else fs p)
  else none

/-- `atomizeTargets`: atomize every non-streaming output target, in order;
streaming targets are skipped. -/
def atomizeTargets : List (String × FileTarget) → FS → Option FS
  | [], fs => some fs
  | kv :: rest, fs =>
    if kv.2.doStream then atomizeTargets rest fs
    else
      match atomizeFS kv.2 fs with
      | some fs1 => atomizeTargets rest fs1
      | none => none

/-- Model of a `ShellTask` as far as execution is concerned: the formatted
command, the output target map, and the optional custom executor.  An
executor (custom or `bash -c`) is a filesystem transformation. -/
structure ShellTask where
  Command : String
  OutTargets : List (String × FileTarget)
  CustomExecute : Option (FS → FS)

/-- The effect the task's command has: the registered custom executor if
present, otherwise the `bash -c` run of the formatted command. -/
def taskEffect (t : ShellTask) (bashRun : String → FS → FS) : FS → FS :=
  match t.CustomExecute with
  | some f => f
  | none => bashRun t.Command

/-- The observable outcome of `ShellTask.Execute`: whether the command ran,
the filesystem afterwards, and what happened on the `Done` channel. -/
structure ExecOutcome where
  ran : Bool
  fsAfter : FS
  doneSent : List Nat
  doneClosed : Bool

/-- `ShellTask.Execute`: run the command only when no non-streaming output
already exists and no streaming FIFO is missing; on a run, atomize the
non-streaming outputs; in every terminating path send the sentinel `1` on
`Done` and then close it (`defer close`).  `none` is the diverging path in
which the atomize retry loop never observes the temp file. -/
def ShellTask.Execute (t : ShellTask) (bashRun : String → FS → FS) (fs : FS) :
    Option ExecOutcome :=
  if !(anyOutputExists t.OutTargets fs) && !(fifosInOutTargetsMissing t.OutTargets fs) then
    match atomizeTargets t.OutTargets (taskEffect t bashRun fs) with
    | some fs2 => some ⟨true, fs2, [1], true⟩
    | none => none
  else
    some ⟨false, fs, [1], true⟩

/-- The final and temp paths of the non-streaming output targets. -/
def nonStreamPaths (outs : List (String × FileTarget)) : List String :=
  (outs.filter (fun kv => !kv.2.doStream)).flatMap (fun kv => [kv.2.GetPath, kv.2.GetTempPath])

theorem nonStreamPaths_cons_stream (kv : String × FileTarget) (rest : List (String × FileTarget))
    (h : kv.2.doStream = true) :
    nonStreamPaths (kv :: rest) = nonStreamPaths rest := by
  simp [nonStreamPaths, List.filter, h]

theorem nonStreamPaths_cons_file (kv : String × FileTarget) (rest : List (String × FileTarget))
    (h : kv.2.doStream = false) :
    nonStreamPaths (kv :: rest) =
      kv.2.GetPath :: kv.2.GetTempPath :: nonStreamPaths rest := by
  simp [nonStreamPaths, List.filter, h]

theorem mem_nonStreamPaths (outs : List (String × FileTarget)) (kv : String × FileTarget)
    (hm : kv ∈ outs) (hs : kv.2.doStream = false) :
    kv.2.GetPath ∈ nonStreamPaths outs ∧ kv.2.GetTempPath ∈ nonStreamPaths outs := by
  constructor <;>
  · rw [nonStreamPaths]
    rw [List.mem_flatMap]
    refine ⟨kv, ?_, by simp⟩
    rw [List.mem_filter]
    exact ⟨hm, by simp [hs]⟩

/-- Atomizing a list of targets whose final and temp paths do not collide
succeeds whenever each non-streaming temp file exists, makes every
non-streaming final path exist and its temp path not exist, and leaves every
other path untouched. -/
theorem atomizeTargets_spec :
    ∀ (outs : List (String × FileTarget)) (fs : FS),
      (nonStreamPaths outs).Nodup →
      (∀ kv ∈ outs, kv.2.doStream = false → fs kv.2.GetTempPath = true) →
      ∃ fs2, atomizeTargets outs fs = some fs2 ∧
        (∀ kv ∈ outs, kv.2.doStream = false →
          fs2 kv.2.GetPath = true ∧ fs2 kv.2.GetTempPath = false) ∧
        (∀ p, p ∉ nonStreamPaths outs → fs2 p = fs p) := by
  intro outs
  induction outs with
  | nil =>
    intro fs _ _
    exact ⟨fs, rfl, by simp, fun p _ => rfl⟩
  | cons kv rest ih =>
    intro fs hnd htmp
    cases hs : kv.2.doStream with
    | true =>
      rw [nonStreamPaths_cons_stream kv rest hs] at hnd
      obtain ⟨fs2, hat, hprop, hoth⟩ := ih fs hnd
        (fun kv2 hm2 hs2 => htmp kv2 (List.mem_cons_of_mem kv hm2) hs2)
      refine ⟨fs2, ?_, ?_, ?_⟩
      · rw [atomizeTargets, if_pos hs]
        exact hat
      · intro kv2 hm2 hs2
        cases List.mem_cons.mp hm2 with
        | inl he => rw [he] at hs2; rw [hs] at hs2; cases hs2
        | inr hr => exact hprop kv2 hr hs2
      · intro p hp
        rw [nonStreamPaths_cons_stream kv rest hs] at hp
        exact hoth p hp
    | false =>
      have hP := nonStreamPaths_cons_file kv rest hs
      rw [hP] at hnd
      have hnd1 := List.nodup_cons.mp hnd
      have hnd2 := List.nodup_cons.mp hnd1.2
      have hPne : kv.2.GetPath ∉ nonStreamPaths rest := by
        intro hmem; exact hnd1.1 (List.mem_cons_of_mem _ hmem)
      have hPneT : kv.2.GetPath ≠ kv.2.GetTempPath := by
        intro he; exact hnd1.1 (he ▸ List.mem_cons_self _ _)
      have hTne : kv.2.GetTempPath ∉ nonStreamPaths rest := hnd2.1
      have htmp0 : fs kv.2.GetTempPath = true := htmp kv (List.mem_cons_self kv rest) hs
      have hfs1 : atomizeFS kv.2 fs =
          some (fun p => if p = kv.2.GetPath then true
            else if p = kv.2.GetTempPath then false else fs p) := by
        rw [atomizeFS, if_pos htmp0]
      set fs1 : FS := fun p => if p = kv.2.GetPath then true
        else if p = kv.2.GetTempPath then false else fs p with hfs1def
      have htmp1 : ∀ kv2 ∈ rest, kv2.2.doStream = false → fs1 kv2.2.GetTempPath = true := by
        intro kv2 hm2 hs2
        have hTin := (mem_nonStreamPaths rest kv2 hm2 hs2).2
        have h1 : kv2.2.GetTempPath ≠ kv.2.GetPath := fun he => hPne (he ▸ hTin)
        have h2 : kv2.2.GetTempPath ≠ kv.2.GetTempPath := fun he => hTne (he ▸ hTin)
        show (if kv2.2.GetTempPath = kv.2.GetPath then true
          else if kv2.2.GetTempPath = kv.2.GetTempPath then false
          else fs kv2.2.GetTempPath) = true
        rw [if_neg h1, if_neg h2]
        exact htmp kv2 (List.mem_cons_of_mem kv hm2) hs2
      obtain ⟨fs2, hat, hprop, hoth⟩ := ih fs1 hnd2.2 htmp1
      refine ⟨fs2, ?_, ?_, ?_⟩
      · rw [atomizeTargets, if_neg (by rw [hs]; exact Bool.false_ne_true), hfs1]
        exact hat
      · intro kv2 hm2 hs2
        cases List.mem_cons.mp hm2 with
        | inl he =>
          subst he
          constructor
          · rw [hoth kv2.2.GetPath hPne]
            show (if kv2.2.GetPath = kv2.2.GetPath then true else _) = true
            rw [if_pos rfl]
          · rw [hoth kv2.2.GetTempPath hTne]
            show (if kv2.2.GetTempPath = kv2.2.GetPath then true
              else if kv2.2.GetTempPath = kv2.2.GetTempPath then false
              else fs kv2.2.GetTempPath) = false
            rw [if_neg (fun he => hPneT he.symm), if_pos rfl]
        | inr hr => exact hprop kv2 hr hs2
      · intro p hp
        rw [hP] at hp
        have hp1 : p ≠ kv.2.GetPath := fun he => hp (he ▸ List.mem_cons_self _ _)
        have hp2 : p ≠ kv.2.GetTempPath := by
          intro he
          exact hp (he ▸ List.mem_cons_of_mem _ (List.mem_cons_self _ _))
        have hp3 : p ∉ nonStreamPaths rest := by
          intro hmem
          exact hp (List.mem_cons_of_mem _ (List.mem_cons_of_mem _ hmem))
        rw [hoth p hp3]
        show (if p = kv.2.GetPath then true
          else if p = kv.2.GetTempPath then false else fs p) = fs p
        rw [if_neg hp1, if_neg hp2]

/-- Claim C2: `ShellTask.Execute` runs the task's command — the registered
custom executor if present, otherwise `bash -c` on the formatted command —
if and only if no non-streaming output target exists at its final or temp
path and no streaming output target's FIFO is missing on disk; when it runs
and succeeds it atomizes (renames `P.tmp` to `P` for) every non-streaming
output and atomizes no streaming output; when a non-streaming output
already exists it returns a completion signal without running; and on every
terminating path it writes exactly one sentinel into `Done` and then closes
it. -/
theorem claim_C2_shellTask_execute (t : ShellTask) (bashRun : String → FS → FS) (fs : FS) :
    (∀ f, t.CustomExecute = some f → taskEffect t bashRun = f) ∧
    (t.CustomExecute = none → taskEffect t bashRun = bashRun t.Command) ∧
    (∀ r, t.Execute bashRun fs = some r →
      (r.ran = true ↔ (anyOutputExists t.OutTargets fs = false ∧
        fifosInOutTargetsMissing t.OutTargets fs = false))) ∧
    (∀ r, t.Execute bashRun fs = some r → r.doneSent = [1] ∧ r.doneClosed = true) ∧
    (anyOutputExists t.OutTargets fs = true →
      t.Execute bashRun fs = some ⟨false, fs, [1], true⟩) ∧
    (anyOutputExists t.OutTargets fs = false →
      fifosInOutTargetsMissing t.OutTargets fs = false →
      (nonStreamPaths t.OutTargets).Nodup →
      (∀ kv ∈ t.OutTargets, kv.2.doStream = false →
        taskEffect t bashRun fs kv.2.GetTempPath = true) →
      ∃ fs2, t.Execute bashRun fs = some ⟨true, fs2, [1], true⟩ ∧
        (∀ kv ∈ t.OutTargets, kv.2.doStream = false →
          fs2 kv.2.GetPath = true ∧ fs2 kv.2.GetTempPath = false) ∧
        (∀ p, p ∉ nonStreamPaths t.OutTargets → fs2 p = taskEffect t bashRun fs p)) := by
  refine ⟨?_, ?_, ?_, ?_, ?_, ?_⟩
  · intro f hf; rw [taskEffect, hf]
  · intro hf; rw [taskEffect, hf]
  · intro r hr
    rw [ShellTask.Execute] at hr
    by_cases hc : anyOutputExists t.OutTargets fs = false ∧
        fifosInOutTargetsMissing t.OutTargets fs = false
    · rw [if_pos (by rw [hc.1, hc.2]; rfl)] at hr
      cases hat : atomizeTargets t.OutTargets (taskEffect t bashRun fs) with
      | some fs2 =>
        rw [hat] at hr
        injection hr with hr2
        subst hr2
        simp [hc]
      | none => rw [hat] at hr; cases hr
    · have hcond : (!(anyOutputExists t.OutTargets fs) &&
          !(fifosInOutTargetsMissing t.OutTargets fs)) = false := by
        cases hA : anyOutputExists t.OutTargets fs with
        | true => simp [hA]
        | false =>
          cases hB : fifosInOutTargetsMissing t.OutTargets fs with
          | true => simp [hB]
          | false => exact absurd ⟨hA, hB⟩ hc
      rw [if_neg (by rw [hcond]; exact Bool.false_ne_true)] at hr
      injection hr with hr2
      subst hr2
      constructor
      · intro hfalse; exact absurd hfalse (by simp)
      · intro hand; exact absurd hand hc
  · intro r hr
    rw [ShellTask.Execute] at hr
    by_cases hc : (!(anyOutputExists t.OutTargets fs) &&
        !(fifosInOutTargetsMissing t.OutTargets fs)) = true
    · rw [if_pos hc] at hr
      cases hat : atomizeTargets t.OutTargets (taskEffect t bashRun fs) with
      | some fs2 =>
        rw [hat] at hr
        injection hr with hr2
        subst hr2
        exact ⟨rfl, rfl⟩
      | none => rw [hat] at hr; cases hr
    · rw [if_neg hc] at hr
      injection hr with hr2
      subst hr2
      exact ⟨rfl, rfl⟩
  · intro hex
    rw [ShellTask.Execute]
    rw [if_neg (by rw [hex]; simp)]
  · intro hex hfifo hnd htmp
    obtain ⟨fs2, hat, hprop, hoth⟩ :=
      atomizeTargets_spec t.OutTargets (taskEffect t bashRun fs) hnd htmp
    refine ⟨fs2, ?_, hprop, hoth⟩
    rw [ShellTask.Execute, if_pos (by rw [hex, hfifo]; rfl), hat]

/-- Concrete instance of claim C2: a task with one non-streaming output
whose command creates the temp file; it runs, the output is atomized, and
the skip branch is exercised on a filesystem where the output exists. -/
theorem claim_C2_shellTask_execute_witness :
    (∃ fs2, ShellTask.Execute ⟨"touch f.tmp", [("out", ⟨"f", false⟩)], none⟩
        (fun _ fs => fun p => if p = "f.tmp" then true else fs p) (fun _ => false) =
        some ⟨true, fs2, [1], true⟩ ∧
      (∀ kv ∈ [(("out" : String), (⟨"f", false⟩ : FileTarget))], kv.2.doStream = false →
        fs2 kv.2.GetPath = true ∧ fs2 kv.2.GetTempPath = false) ∧
      (∀ p, p ∉ nonStreamPaths [(("out" : String), (⟨"f", false⟩ : FileTarget))] →
        fs2 p = taskEffect ⟨"touch f.tmp", [("out", ⟨"f", false⟩)], none⟩
          (fun _ fs => fun p => if p = "f.tmp" then true else fs p) (fun _ => false) p)) ∧
    ShellTask.Execute ⟨"touch f.tmp", [("out", ⟨"f", false⟩)], none⟩
        (fun _ fs => fun p => if p = "f.tmp" then true else fs p) (fun p => p == "f") =
      some ⟨false, (fun p => p == "f"), [1], true⟩ := by
  constructor
  · exact (claim_C2_shellTask_execute ⟨"touch f.tmp", [("out", ⟨"f", false⟩)], none⟩
      (fun _ fs => fun p => if p = "f.tmp" then true else fs p) (fun _ => false)).2.2.2.2.2
      (by decide) (by decide) (by decide)
      (by
        intro kv hm hs
        simp only [List.mem_singleton] at hm
        subst hm
        rfl)
  · exact (claim_C2_shellTask_execute ⟨"touch f.tmp", [("out", ⟨"f", false⟩)], none⟩
      (fun _ fs => fun p => if p = "f.tmp" then true else fs p) (fun p => p == "f")).2.2.2.2.1
      (by decide)

/-! ## The run loop of a shell process as a trace of events

`ShellProcess.Run` is a single sequential loop: for each task created, it
probes the FIFOs, creates them if absent, sends every streaming output
target on its port, and either fires the task's `Execute` in a goroutine or
synthesizes the completion signal; after the task stream closes it walks the
collected tasks in creation order, waits on each task's `Done`, and sends
its non-streaming output targets; finally it closes the output ports
(deferred).  We record this sequence of actions of the `Run` goroutine as a
trace. -/

/-- One observable action of `ShellProcess.Run`. -/
inductive Event where
  | sendStream (taskIdx : Nat) (port : String) (tgt : FileTarget)
  | fire (taskIdx : Nat)
  | synthDone (taskIdx : Nat)
  | awaitDone (taskIdx : Nat)
  | sendFile (taskIdx : Nat) (port : String) (tgt : FileTarget)
  | closePort (port : String)
deriving DecidableEq, Repr

/-- The streaming-output sends of task `i` (the FIFO targets). -/
def streamSends (i : Nat) (outs : List (String × FileTarget)) : List Event :=
  (outs.filter (fun kv => kv.2.doStream)).map (fun kv => Event.sendStream i kv.1 kv.2)

/-- The non-streaming-output sends of task `i`. -/
def fileSends (i : Nat) (outs : List (String × FileTarget)) : List Event :=
  (outs.filter (fun kv => !kv.2.doStream)).map (fun kv => Event.sendFile i kv.1 kv.2)

/-- The scheduling loop over the created tasks (each given with its creation
index and its output target map), threading the filesystem through the FIFO
creation: probe the FIFOs, create them when absent, send the FIFO targets,
then fire the task or synthesize its completion. -/
def schedulePhase : FS → List (Nat × List (String × FileTarget)) → List Event × FS
  | fs, [] => ([], fs)
  | fs, (i, outs) :: rest =>
    let pre := anyFifosExist outs fs
    let fs1 := if pre then fs else createFifosFS outs fs
    ((streamSends i outs ++ [if pre then Event.synthDone i else Event.fire i]) ++
        (schedulePhase fs1 rest).1,
      (schedulePhase fs1 rest).2)

/-- The ordered wait-and-emit loop over the collected tasks: block on each
task's `Done` in creation order, then send its non-streaming outputs. -/
def emitPhase (l : List (Nat × List (String × FileTarget))) : List Event :=
  l.flatMap (fun io => Event.awaitDone io.1 :: fileSends io.1 io.2)

/-- The whole trace of `ShellProcess.Run` over the created tasks (listed by
their output target maps in creation order), starting from filesystem `fs`,
with output ports `ports` closed at exit. -/
def runTrace (tasks : List (List (String × FileTarget))) (fs : FS) (ports : List String) :
    List Event :=
  (schedulePhase fs tasks.enum).1 ++ emitPhase tasks.enum ++ ports.map Event.closePort

/-- The task index an event belongs to. -/
def eventIdx : Event → Option Nat
  | Event.sendStream i _ _ => some i
  | Event.fire i => some i
  | Event.synthDone i => some i
  | Event.awaitDone i => some i
  | Event.sendFile i _ _ => some i
  | Event.closePort _ => none

/-- Events produced by the scheduling loop. -/
def isSchedEvent : Event → Bool
  | Event.sendStream _ _ _ => true
  | Event.fire _ => true
  | Event.synthDone _ => true
  | _ => false

theorem streamSends_idx (i : Nat) (outs : List (String × FileTarget)) (e : Event)
    (h : e ∈ streamSends i outs) : eventIdx e = some i ∧ isSchedEvent e = true := by
  rw [streamSends] at h
  obtain ⟨kv, _, he⟩ := List.mem_map.mp h
  subst he
  exact ⟨rfl, rfl⟩

theorem fileSends_idx (i : Nat) (outs : List (String × FileTarget)) (e : Event)
    (h : e ∈ fileSends i outs) : eventIdx e = some i ∧ isSchedEvent e = false := by
  rw [fileSends] at h
  obtain ⟨kv, _, he⟩ := List.mem_map.mp h
  subst he
  exact ⟨rfl, rfl⟩

/-- Every scheduling event carries the index of some listed task and is a
scheduling-shaped event. -/
theorem schedulePhase_provenance :
    ∀ (l : List (Nat × List (String × FileTarget))) (fs : FS) (e : Event),
      e ∈ (schedulePhase fs l).1 →
      (∃ io ∈ l, eventIdx e = some io.1) ∧ isSchedEvent e = true := by
  intro l
  induction l with
  | nil => intro fs e he; simp [schedulePhase] at he
  | cons io rest ih =>
    intro fs e he
    obtain ⟨i, outs⟩ := io
    rw [schedulePhase] at he
    simp only [List.mem_append] at he
    rcases he with hblk | hrest
    · rcases hblk with hs | hf
      · obtain ⟨hidx, hsch⟩ := streamSends_idx i outs e hs
        exact ⟨⟨(i, outs), List.mem_cons_self _ _, hidx⟩, hsch⟩
      · rw [List.mem_singleton] at hf
        subst hf
        cases anyFifosExist outs fs with
        | true => exact ⟨⟨(i, outs), List.mem_cons_self _ _, rfl⟩, rfl⟩
        | false => exact ⟨⟨(i, outs), List.mem_cons_self _ _, rfl⟩, rfl⟩
    · obtain ⟨⟨io2, hio2, hidx⟩, hsch⟩ := ih _ e hrest
      exact ⟨⟨io2, List.mem_cons_of_mem _ hio2, hidx⟩, hsch⟩

/-- Every emit event carries the index of some listed task and is not a
scheduling-shaped event. -/
theorem emitPhase_provenance :
    ∀ (l : List (Nat × List (String × FileTarget))) (e : Event),
      e ∈ emitPhase l →
      (∃ io ∈ l, eventIdx e = some io.1) ∧ isSchedEvent e = false := by
  intro l
  induction l with
  | nil => intro e he; simp [emitPhase] at he
  | cons io rest ih =>
    intro e he
    rw [emitPhase, List.flatMap_cons, List.mem_append] at he
    rcases he with hblk | hrest
    · rcases List.mem_cons.mp hblk with haw | hfs
      · subst haw
        exact ⟨⟨io, List.mem_cons_self _ _, rfl⟩, rfl⟩
      · obtain ⟨hidx, hsch⟩ := fileSends_idx io.1 io.2 e hfs
        exact ⟨⟨io, List.mem_cons_self _ _, hidx⟩, hsch⟩
    · obtain ⟨⟨io2, hio2, hidx⟩, hsch⟩ := ih e hrest
      exact ⟨⟨io2, List.mem_cons_of_mem _ hio2, hidx⟩, hsch⟩

/-- Decomposition of the scheduling events around task `i`: its streaming
sends followed by its fire-or-synthesize step, with no other event of task
`i` anywhere else in the scheduling phase. -/
theorem schedulePhase_decomp :
    ∀ (l : List (Nat × List (String × FileTarget))) (fs : FS)
      (i : Nat) (outs : List (String × FileTarget)),
      (l.map Prod.fst).Nodup → (i, outs) ∈ l →
      ∃ (A : List Event) (b : Bool) (B : List Event), (schedulePhase fs l).1 =
          A ++ (streamSends i outs ++ [if b = true then Event.synthDone i else Event.fire i]) ++ B ∧
        (∀ e ∈ A, eventIdx e ≠ some i) ∧ (∀ e ∈ B, eventIdx e ≠ some i) := by
  intro l
  induction l with
  | nil => intro fs i outs _ hm; simp at hm
  | cons io rest ih =>
    intro fs i outs hnd hm
    obtain ⟨j, outs2⟩ := io
    have hnd' : (j :: rest.map Prod.fst).Nodup := by simpa using hnd
    have hnd2 := List.nodup_cons.mp hnd'
    rcases List.mem_cons.mp hm with he | hr
    · injection he with he1 he2
      subst he1; subst he2
      refine ⟨[], anyFifosExist outs fs, (schedulePhase
        (if anyFifosExist outs fs then fs else createFifosFS outs fs) rest).1, ?_, ?_, ?_⟩
      · rw [schedulePhase]
        simp
      · intro e he; simp at he
      · intro e he hidx
        obtain ⟨⟨io2, hio2, hidx2⟩, _⟩ := schedulePhase_provenance rest _ e he
        rw [hidx] at hidx2
        injection hidx2 with hii
        exact hnd2.1 (hii ▸ List.mem_map_of_mem Prod.fst hio2)
    · have hij : i ≠ j := by
        intro he
        exact hnd2.1 (he ▸ List.mem_map_of_mem Prod.fst hr)
      obtain ⟨A, b, B, hsplit, hA, hB⟩ := ih
        (if anyFifosExist outs2 fs then fs else createFifosFS outs2 fs) i outs hnd2.2 hr
      refine ⟨(streamSends j outs2 ++
          [if anyFifosExist outs2 fs then Event.synthDone j else Event.fire j]) ++ A, b, B, ?_, ?_, hB⟩
      · rw [schedulePhase]
        rw [hsplit]
        simp [List.append_assoc]
      · intro e he hidx
        rcases List.mem_append.mp he with hblk | hA2
        · rcases List.mem_append.mp hblk with hs | hf
          · obtain ⟨hidx2, _⟩ := streamSends_idx j outs2 e hs
            rw [hidx] at hidx2
            injection hidx2 with hii
            cases hii
            exact hij rfl
          · rw [List.mem_singleton] at hf
            subst hf
            cases hfi : anyFifosExist outs2 fs with
            | true =>
              rw [hfi] at hidx
              injection hidx with hii
              cases hii
              exact hij rfl
            | false =>
              rw [hfi] at hidx
              injection hidx with hii
              cases hii
              exact hij rfl
        · exact hA e hA2 hidx

/-- Decomposition of the emit events around task `i`: its `Done` wait
followed by its non-streaming sends, with no other event of task `i`
anywhere else in the emit phase. -/
theorem emitPhase_decomp :
    ∀ (l : List (Nat × List (String × FileTarget)))
      (i : Nat) (outs : List (String × FileTarget)),
      (l.map Prod.fst).Nodup → (i, outs) ∈ l →
      ∃ A B, emitPhase l = A ++ (Event.awaitDone i :: fileSends i outs) ++ B ∧
        (∀ e ∈ A, eventIdx e ≠ some i) ∧ (∀ e ∈ B, eventIdx e ≠ some i) := by
  intro l
  induction l with
  | nil => intro i outs _ hm; simp at hm
  | cons io rest ih =>
    intro i outs hnd hm
    obtain ⟨j, outs2⟩ := io
    have hnd' : (j :: rest.map Prod.fst).Nodup := by simpa using hnd
    have hnd2 := List.nodup_cons.mp hnd'
    rcases List.mem_cons.mp hm with he | hr
    · injection he with he1 he2
      subst he1; subst he2
      refine ⟨[], emitPhase rest, ?_, ?_, ?_⟩
      · rw [emitPhase, List.flatMap_cons]
        rw [emitPhase]
        simp
      · intro e he; simp at he
      · intro e he hidx
        obtain ⟨⟨io2, hio2, hidx2⟩, _⟩ := emitPhase_provenance rest e he
        rw [hidx] at hidx2
        injection hidx2 with hii
        exact hnd2.1 (hii ▸ List.mem_map_of_mem Prod.fst hio2)
    · have hij : i ≠ j := by
        intro he
        exact hnd2.1 (he ▸ List.mem_map_of_mem Prod.fst hr)
      obtain ⟨A, B, hsplit, hA, hB⟩ := ih i outs hnd2.2 hr
      refine ⟨(Event.awaitDone j :: fileSends j outs2) ++ A, B, ?_, ?_, hB⟩
      · rw [emitPhase, List.flatMap_cons]
        rw [emitPhase] at hsplit
        rw [hsplit]
        simp [List.append_assoc]
      · intro e he hidx
        rcases List.mem_append.mp he with hblk | hA2
        · rcases List.mem_cons.mp hblk with haw | hfs
          · subst haw
            injection hidx with hii
            cases hii
            exact hij rfl
          · obtain ⟨hidx2, _⟩ := fileSends_idx j outs2 e hfs
            rw [hidx] at hidx2
            injection hidx2 with hii
            cases hii
            exact hij rfl
        · exact hA e hA2 hidx

theorem mem_enum_of_getElem (tasks : List (List (String × FileTarget))) (i : Nat)
    (outs : List (String × FileTarget)) (h : tasks[i]? = some outs) :
    (i, outs) ∈ tasks.enum := by
  rw [List.mk_mem_enum_iff_getElem?]
  exact h

/-- Decomposition of the whole run trace around task `i`'s scheduling block:
its streaming sends happen together, immediately before their task is fired
(or its completion synthesized), and no other streaming send of task `i`
occurs anywhere else in the trace. -/
theorem runTrace_stream_decomp (tasks : List (List (String × FileTarget))) (fs : FS)
    (ports : List String) (i : Nat) (outs : List (String × FileTarget))
    (h : tasks[i]? = some outs) :
    ∃ (pre : List Event) (b : Bool) (suf : List Event),
      runTrace tasks fs ports =
        pre ++ (streamSends i outs ++ [if b = true then Event.synthDone i else Event.fire i]) ++ suf ∧
      (∀ o tgt, Event.sendStream i o tgt ∉ pre) ∧
      (∀ o tgt, Event.sendStream i o tgt ∉ suf) := by
  obtain ⟨A, b, B, hsplit, hA, hB⟩ := schedulePhase_decomp tasks.enum fs i outs
    (List.nodup_enum_map_fst tasks) (mem_enum_of_getElem tasks i outs h)
  refine ⟨A, b, B ++ emitPhase tasks.enum ++ ports.map Event.closePort, ?_, ?_, ?_⟩
  · rw [runTrace, hsplit]
    simp [List.append_assoc]
  · intro o tgt hmem
    exact hA _ hmem rfl
  · intro o tgt hmem
    rcases List.mem_append.mp hmem with hmem2 | hcl
    · rcases List.mem_append.mp hmem2 with hBm | hem
      · exact hB _ hBm rfl
      · have := (emitPhase_provenance tasks.enum _ hem).2
        simp [isSchedEvent] at this
    · obtain ⟨p, _, he⟩ := List.mem_map.mp hcl
      exact Event.noConfusion he

/-- Decomposition of the whole run trace around task `i`'s emit block: its
non-streaming sends happen together, immediately after the wait on its
`Done` signal, and no other non-streaming send of task `i` occurs anywhere
else in the trace. -/
theorem runTrace_file_decomp (tasks : List (List (String × FileTarget))) (fs : FS)
    (ports : List String) (i : Nat) (outs : List (String × FileTarget))
    (h : tasks[i]? = some outs) :
    ∃ (pre suf : List Event),
      runTrace tasks fs ports =
        pre ++ (Event.awaitDone i :: fileSends i outs) ++ suf ∧
      (∀ o tgt, Event.sendFile i o tgt ∉ pre) ∧
      (∀ o tgt, Event.sendFile i o tgt ∉ suf) := by
  obtain ⟨A, B, hsplit, hA, hB⟩ := emitPhase_decomp tasks.enum i outs
    (List.nodup_enum_map_fst tasks) (mem_enum_of_getElem tasks i outs h)
  refine ⟨(schedulePhase fs tasks.enum).1 ++ A, B ++ ports.map Event.closePort, ?_, ?_, ?_⟩
  · rw [runTrace, hsplit]
    simp [List.append_assoc]
  · intro o tgt hmem
    rcases List.mem_append.mp hmem with hs | hAm
    · have := (schedulePhase_provenance tasks.enum fs _ hs).2
      simp [isSchedEvent] at this
    · exact hA _ hAm rfl
  · intro o tgt hmem
    rcases List.mem_append.mp hmem with hBm | hcl
    · exact hB _ hBm rfl
    · obtain ⟨p, _, he⟩ := List.mem_map.mp hcl
      exact Event.noConfusion he

/-- The task index of a non-streaming send on the given port. -/
def fileIdxOn (port : String) : Event → Option Nat
  | Event.sendFile j o _ => if o = port then some j else none
  | _ => none

theorem fileIdxOn_eq_some (port : String) (e : Event) (x : Nat)
    (h : fileIdxOn port e = some x) : eventIdx e = some x := by
  cases e <;> simp [fileIdxOn, eventIdx] at h ⊢
  exact h.2

theorem fileIdxOn_of_sched (port : String) (e : Event) (h : isSchedEvent e = true) :
    fileIdxOn port e = none := by
  cases e <;> simp_all [isSchedEvent, fileIdxOn]

theorem sorted_le_append_nat (xs ys : List Nat) (hx : List.Sorted (· ≤ ·) xs)
    (hy : List.Sorted (· ≤ ·) ys) (hxy : ∀ x ∈ xs, ∀ y ∈ ys, x ≤ y) :
    List.Sorted (· ≤ ·) (xs ++ ys) :=
  List.pairwise_append.mpr ⟨hx, hy, hxy⟩

theorem sorted_le_of_all_eq (xs : List Nat) (j : Nat) (h : ∀ x ∈ xs, x = j) :
    List.Sorted (· ≤ ·) xs := by
  induction xs with
  | nil => exact List.sorted_nil
  | cons x rest ih =>
    rw [List.sorted_cons]
    constructor
    · intro b hb
      rw [h x (List.mem_cons_self x rest), h b (List.mem_cons_of_mem x hb)]
    · exact ih (fun y hy => h y (List.mem_cons_of_mem x hy))

theorem emit_block_filterMap_const (port : String) (j : Nat)
    (outs : List (String × FileTarget)) (x : Nat)
    (hx : x ∈ (Event.awaitDone j :: fileSends j outs).filterMap (fileIdxOn port)) :
    x = j := by
  obtain ⟨e, he, hfe⟩ := List.mem_filterMap.mp hx
  rcases List.mem_cons.mp he with haw | hfs
  · subst haw
    simp [fileIdxOn] at hfe
  · obtain ⟨hidx, _⟩ := fileSends_idx j outs e hfs
    have := fileIdxOn_eq_some port e x hfe
    rw [hidx] at this
    injection this with hii
    exact hii.symm

theorem emit_filterMap_mem_fst (port : String)
    (l : List (Nat × List (String × FileTarget))) (x : Nat)
    (hx : x ∈ (emitPhase l).filterMap (fileIdxOn port)) :
    x ∈ l.map Prod.fst := by
  obtain ⟨e, he, hfe⟩ := List.mem_filterMap.mp hx
  obtain ⟨⟨io, hio, hidx⟩, _⟩ := emitPhase_provenance l e he
  have := fileIdxOn_eq_some port e x hfe
  rw [hidx] at this
  injection this with hii
  rw [← hii]
  exact List.mem_map_of_mem Prod.fst hio

/-- Over tasks listed with strictly increasing indices, the indices of the
non-streaming sends on any fixed port appear in non-decreasing order in the
emit phase. -/
theorem emit_filterMap_sorted (port : String) :
    ∀ (l : List (Nat × List (String × FileTarget))),
      (l.map Prod.fst).Pairwise (· < ·) →
      List.Sorted (· ≤ ·) ((emitPhase l).filterMap (fileIdxOn port)) := by
  intro l
  induction l with
  | nil => intro _; simp [emitPhase]
  | cons io rest ih =>
    intro hpw
    have hpw' : (io.1 :: rest.map Prod.fst).Pairwise (· < ·) := by simpa using hpw
    have hhead := (List.pairwise_cons.mp hpw').1
    have htail := (List.pairwise_cons.mp hpw').2
    have hemit : emitPhase (io :: rest) =
        (Event.awaitDone io.1 :: fileSends io.1 io.2) ++ emitPhase rest := by
      rw [emitPhase, emitPhase, List.flatMap_cons]
    rw [hemit, List.filterMap_append]
    apply sorted_le_append_nat
    · exact sorted_le_of_all_eq _ io.1 (emit_block_filterMap_const port io.1 io.2)
    · exact ih htail
    · intro x hx y hy
      rw [emit_block_filterMap_const port io.1 io.2 x hx]
      exact Nat.le_of_lt (hhead y (emit_filterMap_mem_fst port rest y hy))

theorem enum_fst_pairwise_lt (tasks : List (List (String × FileTarget))) :
    (tasks.enum.map Prod.fst).Pairwise (· < ·) := by
  rw [List.enum_map_fst]
  exact List.pairwise_lt_range tasks.length

/-- On any port, the trace of non-streaming sends has non-decreasing task
indices: downstream sees the tasks' outputs in creation order. -/
theorem runTrace_port_sorted (tasks : List (List (String × FileTarget))) (fs : FS)
    (ports : List String) (port : String) :
    List.Sorted (· ≤ ·) ((runTrace tasks fs ports).filterMap (fileIdxOn port)) := by
  rw [runTrace, List.filterMap_append, List.filterMap_append]
  have hsched : (schedulePhase fs tasks.enum).1.filterMap (fileIdxOn port) = [] := by
    rw [List.filterMap_eq_nil_iff]
    intro e he
    exact fileIdxOn_of_sched port e (schedulePhase_provenance tasks.enum fs e he).2
  have hcl : (ports.map Event.closePort).filterMap (fileIdxOn port) = [] := by
    rw [List.filterMap_eq_nil_iff]
    intro e he
    obtain ⟨p, _, hp⟩ := List.mem_map.mp he
    subst hp
    rfl
  rw [hsched, hcl, List.nil_append, List.append_nil]
  exact emit_filterMap_sorted port tasks.enum (enum_fst_pairwise_lt tasks)

/-- Claim C4: in a shell process run, for every task the streaming output
IPs are sent on their output ports before the task's command finishes —
indeed before its execution is started (fired or synthesized) — while each
non-streaming output IP is sent only after that task signals done; and on
every single output port the non-streaming IPs appear in exactly the order
in which the process created the corresponding tasks. -/
theorem claim_C4_run_ordering (tasks : List (List (String × FileTarget))) (fs : FS)
    (ports : List String) :
    (∀ (i : Nat) (outs : List (String × FileTarget)), tasks[i]? = some outs →
      ∃ (pre : List Event) (b : Bool) (suf : List Event),
        runTrace tasks fs ports =
          pre ++ (streamSends i outs ++
            [if b = true then Event.synthDone i else Event.fire i]) ++ suf ∧
        (∀ o tgt, Event.sendStream i o tgt ∉ pre) ∧
        (∀ o tgt, Event.sendStream i o tgt ∉ suf)) ∧
    (∀ (i : Nat) (outs : List (String × FileTarget)), tasks[i]? = some outs →
      ∃ (pre suf : List Event),
        runTrace tasks fs ports =
          pre ++ (Event.awaitDone i :: fileSends i outs) ++ suf ∧
        (∀ o tgt, Event.sendFile i o tgt ∉ pre) ∧
        (∀ o tgt, Event.sendFile i o tgt ∉ suf)) ∧
    (∀ port, List.Sorted (· ≤ ·) ((runTrace tasks fs ports).filterMap (fileIdxOn port))) :=
  ⟨fun i outs h => runTrace_stream_decomp tasks fs ports i outs h,
   fun i outs h => runTrace_file_decomp tasks fs ports i outs h,
   fun port => runTrace_port_sorted tasks fs ports port⟩

/-- Concrete instance of claim C4: a streaming producer task followed by a
non-streaming task. -/
theorem claim_C4_run_ordering_witness :
    (∃ (pre : List Event) (b : Bool) (suf : List Event),
      runTrace [[("s", ⟨"x", true⟩)], [("out", ⟨"y", false⟩)]] (fun _ => false) ["s", "out"] =
        pre ++ (streamSends 0 [("s", ⟨"x", true⟩)] ++
          [if b = true then Event.synthDone 0 else Event.fire 0]) ++ suf ∧
      (∀ o tgt, Event.sendStream 0 o tgt ∉ pre) ∧
      (∀ o tgt, Event.sendStream 0 o tgt ∉ suf)) ∧
    (∃ (pre suf : List Event),
      runTrace [[("s", ⟨"x", true⟩)], [("out", ⟨"y", false⟩)]] (fun _ => false) ["s", "out"] =
        pre ++ (Event.awaitDone 1 :: fileSends 1 [("out", ⟨"y", false⟩)]) ++ suf ∧
      (∀ o tgt, Event.sendFile 1 o tgt ∉ pre) ∧
      (∀ o tgt, Event.sendFile 1 o tgt ∉ suf)) ∧
    List.Sorted (· ≤ ·)
      ((runTrace [[("s", ⟨"x", true⟩)], [("out", ⟨"y", false⟩)]] (fun _ => false)
        ["s", "out"]).filterMap (fileIdxOn "out")) :=
  ⟨(claim_C4_run_ordering [[("s", ⟨"x", true⟩)], [("out", ⟨"y", false⟩)]]
      (fun _ => false) ["s", "out"]).1 0 [("s", ⟨"x", true⟩)] rfl,
   (claim_C4_run_ordering [[("s", ⟨"x", true⟩)], [("out", ⟨"y", false⟩)]]
      (fun _ => false) ["s", "out"]).2.1 1 [("out", ⟨"y", false⟩)] rfl,
   (claim_C4_run_ordering [[("s", ⟨"x", true⟩)], [("out", ⟨"y", false⟩)]]
      (fun _ => false) ["s", "out"]).2.2 "out"⟩

theorem count_map_inj {α : Type} (f : α → Event) (hf : ∀ a b, f a = f b → a = b) :
    ∀ (l : List α) (a : α), l.Nodup → a ∈ l → (l.map f).count (f a) = 1 := by
  intro l
  induction l with
  | nil => intro a _ hm; simp at hm
  | cons x xs ih =>
    intro a hnd hm
    have hnd2 := List.nodup_cons.mp hnd
    rw [List.map_cons]
    rcases List.mem_cons.mp hm with he | hr
    · subst he
      have hz : (xs.map f).count (f a) = 0 := by
        apply List.count_eq_zero_of_not_mem
        intro hmem
        obtain ⟨b, hb, hfb⟩ := List.mem_map.mp hmem
        exact hnd2.1 ((hf b a hfb) ▸ hb)
      rw [List.count_cons_self, hz]
    · have hne : f a ≠ f x := by
        intro he
        exact hnd2.1 ((hf x a he.symm) ▸ hr)
      rw [List.count_cons_of_ne hne]
      exact ih a hnd2.2 hr

theorem sendStream_arg_inj (i : Nat) : ∀ (a b : String × FileTarget),
    Event.sendStream i a.1 a.2 = Event.sendStream i b.1 b.2 → a = b := by
  intro a b h
  cases a; cases b
  injection h with h1 h2 h3
  cases h2; cases h3
  rfl

theorem sendFile_arg_inj (i : Nat) : ∀ (a b : String × FileTarget),
    Event.sendFile i a.1 a.2 = Event.sendFile i b.1 b.2 → a = b := by
  intro a b h
  cases a; cases b
  injection h with h1 h2 h3
  cases h2; cases h3
  rfl

theorem count_in_streamSends (i : Nat) (outs : List (String × FileTarget))
    (kv : String × FileTarget) (hm : kv ∈ outs) (hs : kv.2.doStream = true)
    (hnd : (outs.map Prod.fst).Nodup) :
    (streamSends i outs).count (Event.sendStream i kv.1 kv.2) = 1 := by
  rw [streamSends]
  have hnd2 : (outs.filter (fun kv => kv.2.doStream)).Nodup :=
    (hnd.of_map Prod.fst).filter _
  have hmem : kv ∈ outs.filter (fun kv => kv.2.doStream) :=
    List.mem_filter.mpr ⟨hm, by simp [hs]⟩
  exact count_map_inj _ (sendStream_arg_inj i) _ kv hnd2 hmem

theorem count_in_fileSends (i : Nat) (outs : List (String × FileTarget))
    (kv : String × FileTarget) (hm : kv ∈ outs) (hs : kv.2.doStream = false)
    (hnd : (outs.map Prod.fst).Nodup) :
    (fileSends i outs).count (Event.sendFile i kv.1 kv.2) = 1 := by
  rw [fileSends]
  have hnd2 : (outs.filter (fun kv => !kv.2.doStream)).Nodup :=
    (hnd.of_map Prod.fst).filter _
  have hmem : kv ∈ outs.filter (fun kv => !kv.2.doStream) :=
    List.mem_filter.mpr ⟨hm, by simp [hs]⟩
  exact count_map_inj _ (sendFile_arg_inj i) _ kv hnd2 hmem

/-- Claim C5: for every task that skips execution because a pre-existing
output was found — a non-streaming output already present at its final or
temp path when `Execute` probes it, or a streaming FIFO already present at
scheduling time (in which case the process synthesizes the completion
signal instead of executing) — each of the task's output IPs is still sent
on its corresponding output port exactly once. -/
theorem claim_C5_skipped_emission (tasks : List (List (String × FileTarget))) (fs : FS)
    (ports : List String) (i : Nat) (outs : List (String × FileTarget))
    (h : tasks[i]? = some outs) (hnd : (outs.map Prod.fst).Nodup)
    (hskip : anyOutputExists outs (schedulePhase fs (List.take i tasks.enum)).2 = true ∨
      anyFifosExist outs (schedulePhase fs (List.take i tasks.enum)).2 = true) :
    ∀ kv ∈ outs,
      (runTrace tasks fs ports).count
        (if kv.2.doStream = true then Event.sendStream i kv.1 kv.2
          else Event.sendFile i kv.1 kv.2) = 1 := by
  intro kv hm
  cases hs : kv.2.doStream with
  | true =>
    rw [if_pos rfl]
    obtain ⟨pre, b, suf, hsplit, hpre, hsuf⟩ := runTrace_stream_decomp tasks fs ports i outs h
    rw [hsplit]
    rw [List.count_append, List.count_append, List.count_append]
    rw [List.count_eq_zero_of_not_mem (hpre kv.1 kv.2),
        List.count_eq_zero_of_not_mem (hsuf kv.1 kv.2)]
    rw [count_in_streamSends i outs kv hm hs hnd]
    have hz : ([if b = true then Event.synthDone i else Event.fire i].count
        (Event.sendStream i kv.1 kv.2)) = 0 := by
      apply List.count_eq_zero_of_not_mem
      cases b <;> simp
    rw [hz]
  | false =>
    rw [if_neg (by decide : ¬ (false = true))]
    obtain ⟨pre, suf, hsplit, hpre, hsuf⟩ := runTrace_file_decomp tasks fs ports i outs h
    rw [hsplit]
    have hblock : Event.awaitDone i :: fileSends i outs =
        [Event.awaitDone i] ++ fileSends i outs := rfl
    rw [hblock]
    rw [List.count_append, List.count_append, List.count_append]
    rw [List.count_eq_zero_of_not_mem (hpre kv.1 kv.2),
        List.count_eq_zero_of_not_mem (hsuf kv.1 kv.2)]
    rw [count_in_fileSends i outs kv hm hs hnd]
    have hz : ([Event.awaitDone i].count (Event.sendFile i kv.1 kv.2)) = 0 := by
      apply List.count_eq_zero_of_not_mem
      simp
    rw [hz]

/-- Concrete instance of claim C5: a task whose single non-streaming output
already exists on disk at scheduling time still sends that output exactly
once. -/
theorem claim_C5_skipped_emission_witness :
    (runTrace [[("out", FileTarget.mk "a" false)]] (fun p => p == "a") ["out"]).count
      (Event.sendFile 0 "out" (FileTarget.mk "a" false)) = 1 := by
  have h := claim_C5_skipped_emission [[("out", FileTarget.mk "a" false)]]
    (fun p => p == "a") ["out"] 0 [("out", FileTarget.mk "a" false)] rfl (by decide)
    (Or.inl rfl) ("out", FileTarget.mk "a" false) (List.mem_singleton.mpr rfl)
  simpa using h

/-! ## The task-creation loop of a shell process

`createTasks` repeatedly gathers one tuple of inputs and parameters —
`receiveInputs` and `receiveParams` do one blocking receive per port, noting
whether any channel was observed closed — applies the three-way termination
rule, emits a task, and breaks immediately when there are no ports at all.
Port channels are modelled by the list of values still queued on them. -/

/-- One gather over a port map: receive one value from every port (in list
order); a closed (exhausted) channel flips the open flag to false and
contributes nothing.  Returns the received values, the updated channels and
the open flag. -/
def recvAll {β : Type} : List (String × List β) →
    List (String × β) × List (String × List β) × Bool
  | [] => ([], [], true)
  | (n, []) :: rest =>
    ((recvAll rest).1, (n, ([] : List β)) :: (recvAll rest).2.1, false)
  | (n, x :: xs) :: rest =>
    ((n, x) :: (recvAll rest).1, (n, xs) :: (recvAll rest).2.1, (recvAll rest).2.2)

/-- Total number of values still queued on a port map. -/
def itemCount {β : Type} (ps : List (String × List β)) : Nat :=
  (ps.map (fun kv => kv.2.length)).sum

theorem recvAll_itemCount_le {β : Type} :
    ∀ (ps : List (String × List β)), itemCount (recvAll ps).2.1 ≤ itemCount ps := by
  intro ps
  induction ps with
  | nil => exact Nat.le_refl _
  | cons kv rest ih =>
    obtain ⟨n, ch⟩ := kv
    cases ch with
    | nil =>
      simp only [recvAll, itemCount, List.map_cons, List.sum_cons] at ih ⊢
      omega
    | cons x xs =>
      simp only [recvAll, itemCount, List.map_cons, List.sum_cons, List.length_cons] at ih ⊢
      omega

theorem recvAll_itemCount_open {β : Type} :
    ∀ (ps : List (String × List β)), (recvAll ps).2.2 = true →
      itemCount (recvAll ps).2.1 + ps.length = itemCount ps := by
  intro ps
  induction ps with
  | nil => intro _; rfl
  | cons kv rest ih =>
    obtain ⟨n, ch⟩ := kv
    cases ch with
    | nil =>
      intro hopen
      simp [recvAll] at hopen
    | cons x xs =>
      intro hopen
      have hopen2 : (recvAll rest).2.2 = true := by simpa [recvAll] using hopen
      have := ih hopen2
      simp only [recvAll, itemCount, List.map_cons, List.sum_cons, List.length_cons] at this ⊢
      omega

/-- The data of one created task: the gathered input targets and parameter
values (`NewShellTask` is then called on exactly these). -/
structure TaskSpec where
  inTargets : List (String × FileTarget)
  params : List (String × String)
deriving DecidableEq, Repr

/-- `createTasks`: the task-creation loop.  Each iteration gathers one tuple
from the in-ports and parameter ports, applies the three termination tests
in source order, otherwise creates a task, and finally breaks when the
process has no in-ports and no parameter ports. -/
def createTasksLoop (ins : List (String × List FileTarget))
    (pars : List (String × List String)) : List TaskSpec :=
  if h1 : (recvAll ins).2.2 = false ∧ (recvAll pars).2.2 = false then []
  else if h2 : ins.length = 0 ∧ (recvAll pars).2.2 = false then []
  else if h3 : pars.length = 0 ∧ (recvAll ins).2.2 = false then []
  else
    ⟨(recvAll ins).1, (recvAll pars).1⟩ ::
      (if h4 : ins.length = 0 ∧ pars.length = 0 then []
       else createTasksLoop (recvAll ins).2.1 (recvAll pars).2.1)
termination_by itemCount ins + itemCount pars
decreasing_by
  rcases Bool.eq_false_or_eq_true (recvAll ins).2.2 with hin | hin
  · cases hz : ins.length with
    | zero =>
      have hparOpen : (recvAll pars).2.2 = true := by
        cases hpo : (recvAll pars).2.2 with
        | false => exact absurd ⟨hz, hpo⟩ h2
        | true => rfl
      have hplen : pars.length ≠ 0 := by
        intro hz2
        exact h4 ⟨hz, hz2⟩
      have hp := recvAll_itemCount_open pars hparOpen
      have hi := recvAll_itemCount_le ins
      omega
    | succ k =>
      have hii := recvAll_itemCount_open ins hin
      have hpl := recvAll_itemCount_le pars
      omega
  · have hparOpen : (recvAll pars).2.2 = true := by
      cases hpo : (recvAll pars).2.2 with
      | false => exact absurd ⟨hin, hpo⟩ h1
      | true => rfl
    have hplen : pars.length ≠ 0 := by
      intro hz
      exact h3 ⟨hz, hin⟩
    have hp := recvAll_itemCount_open pars hparOpen
    have hi := recvAll_itemCount_le ins
    omega

/-- Claim C8: a `ShellProcess` whose command template declares zero input
ports and zero parameter ports performs exactly one gather iteration: its
task-creation loop produces exactly one task and then terminates. -/
theorem claim_C8_single_shot (cmd : String) (params : Option (List (String × String)))
    (ins : List (String × List FileTarget)) (pars : List (String × List String))
    (hin : (initPortsFromCmdPattern cmd params).inPorts = [])
    (hpar : (initPortsFromCmdPattern cmd params).paramPorts = [])
    (hlen1 : ins.length = (initPortsFromCmdPattern cmd params).inPorts.length)
    (hlen2 : pars.length = (initPortsFromCmdPattern cmd params).paramPorts.length) :
    createTasksLoop ins pars = [⟨[], []⟩] := by
  rw [hin] at hlen1
  rw [hpar] at hlen2
  have hi : ins = [] := List.length_eq_zero.mp (by simpa using hlen1)
  have hp : pars = [] := List.length_eq_zero.mp (by simpa using hlen2)
  subst hi
  subst hp
  rw [createTasksLoop]
  simp [recvAll]

/-- Concrete instance of claim C8 at the placeholder-free template
`echo hi`: one task, empty gather. -/
theorem claim_C8_single_shot_witness :
    createTasksLoop ([] : List (String × List FileTarget))
      ([] : List (String × List String)) = [⟨[], []⟩] :=
  claim_C8_single_shot "echo hi" none [] []
    (by rw [initPortsFromCmdPattern, scanPH_nil_of_braceFree _ (by decide)]; rfl)
    (by rw [initPortsFromCmdPattern, scanPH_nil_of_braceFree _ (by decide)]; rfl)
    (by rw [initPortsFromCmdPattern, scanPH_nil_of_braceFree _ (by decide)]; rfl)
    (by rw [initPortsFromCmdPattern, scanPH_nil_of_braceFree _ (by decide)]; rfl)

/-! ## File ports and Connect

A `FilePort` records its inbound channel list `inChans`, outbound channel
list `outChans` and connected flag; channels are identified by the order of
their allocation (`make(chan ...)`), drawn from a fresh counter in the
world state. -/

/-- Model of a `FilePort` (the merged input channel is owned per port and
plays no role in `Connect`). -/
structure FilePort where
  inChans : List Nat
  outChans : List Nat
  connected : Bool
deriving DecidableEq, Repr

/-- `NewFilePort`: empty channel lists, not connected. -/
def NewFilePort : FilePort := ⟨[], [], false⟩

/-- The local side of `Connect`: add `c1` as inbound and `c2` as outbound,
and mark connected. -/
def connLocal (c1 c2 : Nat) (p : FilePort) : FilePort :=
  ⟨p.inChans ++ [c1], p.outChans ++ [c2], true⟩

/-- The remote side of `Connect`: add `c1` as outbound and `c2` as inbound,
and mark connected. -/
def connRemote (c1 c2 : Nat) (p : FilePort) : FilePort :=
  ⟨p.inChans ++ [c2], p.outChans ++ [c1], true⟩

/-- Apply `f` to the element at position `i` (no effect out of range). -/
def modifyAt (f : FilePort → FilePort) : Nat → List FilePort → List FilePort
  | _, [] => []
  | 0, p :: ps => f p :: ps
  | n + 1, p :: ps => p :: modifyAt f n ps

/-- A world of file ports plus the fresh-channel counter. -/
structure PortState where
  ports : List FilePort
  nextChan : Nat
deriving DecidableEq, Repr

/-- `FilePort.Connect` between ports `i` (local) and `j` (remote): allocate
two fresh buffered channels `c1` and `c2`; register `c1` as an inbound of
`i` and an outbound of `j`, and `c2` as an outbound of `i` and an inbound of
`j`; set both connected flags.  The two `modifyAt` calls group the local
port's two registrations and the remote port's two registrations. -/
def connectStep (s : PortState) (i j : Nat) : PortState :=
  ⟨modifyAt (connRemote s.nextChan (s.nextChan + 1)) j
    (modifyAt (connLocal s.nextChan (s.nextChan + 1)) i s.ports),
   s.nextChan + 2⟩

/-- A fresh world of `n` unconnected ports. -/
def initialPortState (n : Nat) : PortState := ⟨List.replicate n NewFilePort, 0⟩

/-- A sequence of `Connect` calls. -/
def applyConnects (s : PortState) (ops : List (Nat × Nat)) : PortState :=
  ops.foldl (fun s2 op => connectStep s2 op.1 op.2) s

/-- How many times channel `c` appears among all inbound lists. -/
def inCount (ps : List FilePort) (c : Nat) : Nat :=
  (ps.map (fun p => p.inChans.count c)).sum

theorem inCount_cons (p : FilePort) (ps : List FilePort) (c : Nat) :
    inCount (p :: ps) c = p.inChans.count c + inCount ps c := by
  simp [inCount]

theorem modifyAt_length (f : FilePort → FilePort) :
    ∀ (i : Nat) (ps : List FilePort), (modifyAt f i ps).length = ps.length := by
  intro i ps
  induction ps generalizing i with
  | nil => cases i <;> rfl
  | cons p rest ih =>
    cases i with
    | zero => rfl
    | succ n => simp [modifyAt, ih n]

theorem modifyAt_getElem_self (f : FilePort → FilePort) :
    ∀ (i : Nat) (ps : List FilePort), (modifyAt f i ps)[i]? = (ps[i]?).map f := by
  intro i ps
  induction ps generalizing i with
  | nil => cases i <;> simp [modifyAt]
  | cons p rest ih =>
    cases i with
    | zero => simp [modifyAt]
    | succ n => simpa [modifyAt] using ih n

theorem modifyAt_getElem_other (f : FilePort → FilePort) :
    ∀ (i k : Nat) (ps : List FilePort), k ≠ i → (modifyAt f i ps)[k]? = ps[k]? := by
  intro i k ps
  induction ps generalizing i k with
  | nil => intro _; cases i <;> simp [modifyAt]
  | cons p rest ih =>
    intro hne
    cases i with
    | zero =>
      cases k with
      | zero => exact absurd rfl hne
      | succ m => simp [modifyAt]
    | succ n =>
      cases k with
      | zero => simp [modifyAt]
      | succ m =>
        simp only [modifyAt, List.getElem?_cons_succ]
        exact ih n m (fun he => hne (congrArg Nat.succ he))

theorem modifyAt_mem (f : FilePort → FilePort) :
    ∀ (i : Nat) (ps : List FilePort) (q : FilePort), q ∈ modifyAt f i ps →
      q ∈ ps ∨ ∃ p ∈ ps, q = f p := by
  intro i ps
  induction ps generalizing i with
  | nil => intro q hq; cases i <;> simp [modifyAt] at hq
  | cons p rest ih =>
    intro q hq
    cases i with
    | zero =>
      rcases List.mem_cons.mp hq with he | hr
      · exact Or.inr ⟨p, List.mem_cons_self p rest, he⟩
      · exact Or.inl (List.mem_cons_of_mem p hr)
    | succ n =>
      rcases List.mem_cons.mp hq with he | hr
      · exact Or.inl (he ▸ List.mem_cons_self p rest)
      · rcases ih n q hr with hin | ⟨p2, hp2, he2⟩
        · exact Or.inl (List.mem_cons_of_mem p hin)
        · exact Or.inr ⟨p2, List.mem_cons_of_mem p hp2, he2⟩

theorem modifyAt_inCount (f : FilePort → FilePort) (l : List Nat)
    (hf : ∀ p, (f p).inChans = p.inChans ++ l) :
    ∀ (i : Nat) (ps : List FilePort) (c : Nat),
      inCount (modifyAt f i ps) c =
        inCount ps c + (if i < ps.length then l.count c else 0) := by
  intro i ps
  induction ps generalizing i with
  | nil => intro c; cases i <;> simp [modifyAt, inCount]
  | cons p rest ih =>
    intro c
    cases i with
    | zero =>
      have hstep : modifyAt f 0 (p :: rest) = f p :: rest := rfl
      rw [hstep, inCount_cons, inCount_cons, hf p, List.count_append]
      have hlt : 0 < (p :: rest).length := Nat.succ_pos _
      rw [if_pos hlt]
      omega
    | succ n =>
      have hstep : modifyAt f (n + 1) (p :: rest) = p :: modifyAt f n rest := rfl
      rw [hstep, inCount_cons, inCount_cons, ih n c]
      have hiff : n + 1 < (p :: rest).length ↔ n < rest.length := by
        simp only [List.length_cons]
        omega
      by_cases hlt : n < rest.length
      · rw [if_pos hlt, if_pos (hiff.mpr hlt)]
        omega
      · rw [if_neg hlt, if_neg (fun h2 => hlt (hiff.mp h2))]
        omega

theorem inCount_eq_zero (ps : List FilePort) (c : Nat)
    (h : ∀ p ∈ ps, c ∉ p.inChans) : inCount ps c = 0 := by
  induction ps with
  | nil => rfl
  | cons p rest ih =>
    rw [inCount_cons]
    rw [List.count_eq_zero_of_not_mem (h p (List.mem_cons_self p rest))]
    rw [Nat.zero_add]
    exact ih (fun q hq => h q (List.mem_cons_of_mem p hq))

/-- The inbound-channel invariant: every channel appears at most once among
all inbound lists, and every registered channel is older than the fresh
counter. -/
def PortInv (s : PortState) : Prop :=
  (∀ c, inCount s.ports c ≤ 1) ∧
  (∀ p ∈ s.ports, ∀ c ∈ p.inChans, c < s.nextChan)

theorem connectStep_inv (s : PortState) (i j : Nat) (h : PortInv s) :
    PortInv (connectStep s i j) := by
  obtain ⟨hcnt, hbnd⟩ := h
  have hf1 : ∀ p : FilePort,
      (connLocal s.nextChan (s.nextChan + 1) p).inChans = p.inChans ++ [s.nextChan] :=
    fun p => rfl
  have hf2 : ∀ p : FilePort,
      (connRemote s.nextChan (s.nextChan + 1) p).inChans = p.inChans ++ [s.nextChan + 1] :=
    fun p => rfl
  constructor
  · intro c
    show inCount (modifyAt _ j (modifyAt _ i s.ports)) c ≤ 1
    rw [modifyAt_inCount _ [s.nextChan + 1] hf2 j _ c,
        modifyAt_inCount _ [s.nextChan] hf1 i s.ports c]
    have hfresh1 : inCount s.ports s.nextChan = 0 := by
      apply inCount_eq_zero
      intro p hp hmem
      exact absurd (hbnd p hp s.nextChan hmem) (Nat.lt_irrefl _)
    have hfresh2 : inCount s.ports (s.nextChan + 1) = 0 := by
      apply inCount_eq_zero
      intro p hp hmem
      have := hbnd p hp (s.nextChan + 1) hmem
      omega
    by_cases he1 : c = s.nextChan
    · subst he1
      rw [hfresh1]
      have hz : [s.nextChan + 1].count s.nextChan = 0 :=
        List.count_eq_zero_of_not_mem (by simp)
      rw [hz]
      have ho : [s.nextChan].count s.nextChan = 1 := by simp
      rw [ho]
      split <;> split <;> omega
    · by_cases he2 : c = s.nextChan + 1
      · subst he2
        rw [hfresh2]
        have hz : [s.nextChan].count (s.nextChan + 1) = 0 :=
          List.count_eq_zero_of_not_mem (by simp)
        rw [hz]
        have ho : [s.nextChan + 1].count (s.nextChan + 1) = 1 := by simp
        rw [ho]
        split <;> split <;> omega
      · have hz1 : [s.nextChan].count c = 0 :=
          List.count_eq_zero_of_not_mem (by simpa using he1)
        have hz2 : [s.nextChan + 1].count c = 0 :=
          List.count_eq_zero_of_not_mem (by simpa using he2)
        rw [hz1, hz2]
        have := hcnt c
        split <;> split <;> omega
  · intro p hp c hc
    show c < s.nextChan + 2
    rcases modifyAt_mem _ j _ p hp with hp1 | ⟨p2, hp2, he2⟩
    · rcases modifyAt_mem _ i _ p hp1 with hp0 | ⟨p3, hp3, he3⟩
      · exact Nat.lt_of_lt_of_le (hbnd p hp0 c hc) (by omega)
      · subst he3
        rw [hf1 p3] at hc
        rcases List.mem_append.mp hc with hold | hnew
        · exact Nat.lt_of_lt_of_le (hbnd p3 hp3 c hold) (by omega)
        · rw [List.mem_singleton] at hnew
          omega
    · subst he2
      rw [hf2 p2] at hc
      rcases List.mem_append.mp hc with hold | hnew
      · rcases modifyAt_mem _ i _ p2 hp2 with hp0 | ⟨p3, hp3, he3⟩
        · exact Nat.lt_of_lt_of_le (hbnd p2 hp0 c hold) (by omega)
        · subst he3
          rw [hf1 p3] at hold
          rcases List.mem_append.mp hold with hold2 | hnew2
          · exact Nat.lt_of_lt_of_le (hbnd p3 hp3 c hold2) (by omega)
          · rw [List.mem_singleton] at hnew2
            omega
      · rw [List.mem_singleton] at hnew
        omega

theorem initial_inv (n : Nat) : PortInv (initialPortState n) := by
  constructor
  · intro c
    have hz : inCount (List.replicate n NewFilePort) c = 0 := by
      apply inCount_eq_zero
      intro p hp
      rw [List.eq_of_mem_replicate hp]
      simp [NewFilePort]
    show inCount (List.replicate n NewFilePort) c ≤ 1
    omega
  · intro p hp c hc
    have hrep : p ∈ List.replicate n NewFilePort := hp
    rw [List.eq_of_mem_replicate hrep] at hc
    simp [NewFilePort] at hc

theorem applyConnects_inv (ops : List (Nat × Nat)) :
    ∀ (s : PortState), PortInv s → PortInv (applyConnects s ops) := by
  induction ops with
  | nil => intro s h; exact h
  | cons op rest ih =>
    intro s h
    exact ih (connectStep s op.1 op.2) (connectStep_inv s op.1 op.2 h)

/-- Claim C9: `FilePort.Connect(local, remote)` creates exactly two fresh
buffered channels, registering one as an inbound of `local` and an outbound
of `remote` and the other as an outbound of `local` and an inbound of
`remote`, and sets both ports' connected flags; consequently, after any
sequence of `Connect` calls starting from fresh ports, every inbound channel
appears at most once across all ports' inbound lists (each registered one
exactly once), and a connected flag once true stays true. -/
theorem claim_C9_filePort_connect :
    (∀ (s : PortState) (i j : Nat) (pi2 pj2 : FilePort), i ≠ j →
      s.ports[i]? = some pi2 → s.ports[j]? = some pj2 →
      (connectStep s i j).ports[i]? = some ⟨pi2.inChans ++ [s.nextChan],
        pi2.outChans ++ [s.nextChan + 1], true⟩ ∧
      (connectStep s i j).ports[j]? = some ⟨pj2.inChans ++ [s.nextChan + 1],
        pj2.outChans ++ [s.nextChan], true⟩ ∧
      (connectStep s i j).nextChan = s.nextChan + 2) ∧
    (∀ (s : PortState) (i j k : Nat) (p : FilePort),
      s.ports[k]? = some p → p.connected = true →
      ∃ p2, (connectStep s i j).ports[k]? = some p2 ∧ p2.connected = true) ∧
    (∀ (ops : List (Nat × Nat)) (numPorts c : Nat),
      inCount (applyConnects (initialPortState numPorts) ops).ports c ≤ 1) := by
  refine ⟨?_, ?_, ?_⟩
  · intro s i j pi2 pj2 hij hpi hpj
    refine ⟨?_, ?_, rfl⟩
    · show (modifyAt _ j (modifyAt _ i s.ports))[i]? = _
      rw [modifyAt_getElem_other _ j i _ hij,
          modifyAt_getElem_self, hpi]
      rfl
    · show (modifyAt _ j (modifyAt _ i s.ports))[j]? = _
      rw [modifyAt_getElem_self, modifyAt_getElem_other _ i j _ (fun he => hij he.symm)]
      rw [hpj]
      rfl
  · intro s i j k p hk hconn
    by_cases hkj : k = j
    · subst hkj
      cases hmid : (modifyAt (connLocal s.nextChan (s.nextChan + 1)) i s.ports)[k]? with
      | none =>
        exfalso
        by_cases hki : k = i
        · subst hki
          rw [modifyAt_getElem_self, hk] at hmid
          cases hmid
        · rw [modifyAt_getElem_other _ i k s.ports hki, hk] at hmid
          cases hmid
      | some q =>
        refine ⟨connRemote s.nextChan (s.nextChan + 1) q, ?_, rfl⟩
        show (modifyAt _ k (modifyAt _ i s.ports))[k]? = _
        rw [modifyAt_getElem_self, hmid]
        rfl
    · by_cases hki : k = i
      · subst hki
        refine ⟨connLocal s.nextChan (s.nextChan + 1) p, ?_, rfl⟩
        show (modifyAt _ j (modifyAt _ k s.ports))[k]? = _
        rw [modifyAt_getElem_other _ j k _ hkj, modifyAt_getElem_self, hk]
        rfl
      · refine ⟨p, ?_, hconn⟩
        show (modifyAt _ j (modifyAt _ i s.ports))[k]? = some p
        rw [modifyAt_getElem_other _ j k _ hkj, modifyAt_getElem_other _ i k _ hki, hk]
  · intro ops numPorts c
    exact (applyConnects_inv ops (initialPortState numPorts) (initial_inv numPorts)).1 c

/-- Concrete instance of claim C9: connecting ports 0 and 1 of a fresh
two-port world, then checking the registrations and the invariant. -/
theorem claim_C9_filePort_connect_witness :
    ((connectStep (initialPortState 2) 0 1).ports[0]? =
      some ⟨NewFilePort.inChans ++ [(initialPortState 2).nextChan],
        NewFilePort.outChans ++ [(initialPortState 2).nextChan + 1], true⟩ ∧
     (connectStep (initialPortState 2) 0 1).ports[1]? =
      some ⟨NewFilePort.inChans ++ [(initialPortState 2).nextChan + 1],
        NewFilePort.outChans ++ [(initialPortState 2).nextChan], true⟩ ∧
     (connectStep (initialPortState 2) 0 1).nextChan = (initialPortState 2).nextChan + 2) ∧
    inCount (applyConnects (initialPortState 2) [(0, 1), (0, 1)]).ports 0 ≤ 1 :=
  ⟨claim_C9_filePort_connect.1 (initialPortState 2) 0 1 NewFilePort NewFilePort
      (by decide) rfl rfl,
   claim_C9_filePort_connect.2.2 [(0, 1), (0, 1)] 2 0⟩

/-! ## Reading audit info -/

/-- Modelled from the spec: `NewAuditInfo` (the audit source file is not
part of the sources; section 6 gives the audit-file format) returns a fresh
audit record with empty `Params` and `Keys` maps — the "empty audit record"
of the spec. -/
structure AuditInfo where
  Params : List (String × String)
  Keys : List (String × String)
deriving DecidableEq, Repr

/-- Modelled from the spec: a fresh, empty audit record. -/
def NewAuditInfo : AuditInfo := ⟨[], []⟩

/-- The possible outcomes of `ioutil.ReadFile` on the audit file path: a
successful read of the raw data, an IO error although the file exists on
disk, or an error because the file is missing.  The Go code branches only
on `err == nil`, so the two error outcomes are indistinguishable to it. -/
inductive ReadOutcome where
  | ok (data : String)
  | errFileExists
  | errFileMissing
deriving DecidableEq, Repr

/-- `InformationPacket.GetAuditInfo`: return the cached record when present;
otherwise start from `NewAuditInfo`, try to read the audit file, proceed
with the fresh record on any read error, and fatally `Check` only an
unmarshal error on successfully read data. -/
def GetAuditInfo (cached : Option AuditInfo) (read : ReadOutcome)
    (unmarshal : String → Except String AuditInfo) : Except String AuditInfo :=
  match cached with
  | some ai => Except.ok ai
  | none =>
    match read with
    | ReadOutcome.ok dat =>
      match unmarshal dat with
      | Except.ok ai => Except.ok ai
      | Except.error e =>
        Except.error ("Could not unmarshal audit log file content: " ++ e)
    | ReadOutcome.errFileExists => Except.ok NewAuditInfo
    | ReadOutcome.errFileMissing => Except.ok NewAuditInfo

/-- Counterexample to claim C7: with no cached record, an audit file that
exists on disk but cannot be read, and an unmarshaller that rejects all
input, `GetAuditInfo` does not terminate with an error — it proceeds with
the fresh empty audit record. -/
theorem claim_C7_counterexample :
    GetAuditInfo none ReadOutcome.errFileExists (fun _ => Except.error "boom") =
      Except.ok NewAuditInfo ∧
    ¬ ∃ e, GetAuditInfo none ReadOutcome.errFileExists (fun _ => Except.error "boom") =
      Except.error e := by
  constructor
  · rfl
  · rintro ⟨e, he⟩
    simp [GetAuditInfo] at he

/-- Claim C7 amended: `GetAuditInfo` silently ignores every audit-file read
error — whether or not the file exists on disk — and proceeds with a fresh
empty audit record; a cached record is returned as-is; on a successful read
the unmarshalled record is returned, and only an unmarshal failure is
fatal. -/
theorem claim_C7_audit_read (unmarshal : String → Except String AuditInfo) :
    GetAuditInfo none ReadOutcome.errFileExists unmarshal = Except.ok NewAuditInfo ∧
    GetAuditInfo none ReadOutcome.errFileMissing unmarshal = Except.ok NewAuditInfo ∧
    (∀ ai read, GetAuditInfo (some ai) read unmarshal = Except.ok ai) ∧
    (∀ d ai, unmarshal d = Except.ok ai →
      GetAuditInfo none (ReadOutcome.ok d) unmarshal = Except.ok ai) ∧
    (∀ d e, unmarshal d = Except.error e →
      GetAuditInfo none (ReadOutcome.ok d) unmarshal =
        Except.error ("Could not unmarshal audit log file content: " ++ e)) := by
  refine ⟨rfl, rfl, fun ai read => rfl, ?_, ?_⟩
  · intro d ai h
    simp [GetAuditInfo, h]
  · intro d e h
    simp [GetAuditInfo, h]

/-- Concrete instances of the amended claim C7: the ignored-error path and
the fatal unmarshal path. -/
theorem claim_C7_audit_read_witness :
    GetAuditInfo none ReadOutcome.errFileExists (fun _ => Except.error "bad json") =
      Except.ok NewAuditInfo ∧
    GetAuditInfo none (ReadOutcome.ok "x") (fun _ => Except.error "bad json") =
      Except.error ("Could not unmarshal audit log file content: " ++ "bad json") :=
  ⟨(claim_C7_audit_read (fun _ => Except.error "bad json")).1,
   (claim_C7_audit_read (fun _ => Except.error "bad json")).2.2.2.2 "x" "bad json" rfl⟩

end SciPipe
